import Mathlib

/-!
Verification of the runpod CLI wrapper against its specification.

The Python modules are shallowly embedded: JSON task dictionaries become
structures with optional fields, file writes become explicit operation
traces over an association-list file system, and the SSH config editor is
modelled line by line.  Each claim of the specification is settled by a
theorem about these embeddings.
-/

set_option maxRecDepth 10000

namespace RpTick

/-- A scheduled task as stored in `schedule.json`: the tick code accesses the
JSON dictionary with `.get`, so every field is optional. -/
structure Task where
  id : Option String
  action : Option String
  aliasName : Option String
  when_epoch : Option Int
  status : Option String
  last_error : Option String
deriving DecidableEq

/-- Result of one `scheduler_tick` run: the final task list, whether the task
file was saved, and the aliases for which `stop_impl` was invoked. -/
structure TickResult where
  tasks : List Task
  saved : Bool
  stops : List String
deriving DecidableEq

/-- Due test used by `scheduler_tick`: status is `"pending"` and
`int(t.get("when_epoch", 0)) <= now_epoch`. -/
def isDuePending (now : Int) (t : Task) : Bool :=
  t.status == some "pending" && decide (t.when_epoch.getD 0 ≤ now)

/-- Processing of a single task inside the tick loop of
`scheduler_tick` / `scheduler_tick_impl`: non-pending and not-yet-due tasks
are skipped; a due pending `stop` task with a truthy alias is executed and
marked `completed`, or `failed` with `last_error` when `stop_impl` raises.
`stopResult a = none` models success of `stop_impl a`; `some e` models an
exception with message `e`.  The second component records the invocation. -/
def tickTask (stopResult : String → Option String) (now : Int) (t : Task) :
    Task × List String :=
  if t.status != some "pending" then (t, [])
  else if decide (now < t.when_epoch.getD 0) then (t, [])
  else
    match t.action, t.aliasName with
    | some act, some a =>
      if act = "stop" ∧ a ≠ "" then
        match stopResult a with
        | none => ({ t with status := some "completed" }, [a])
        | some e => ({ t with status := some "failed", last_error := some e }, [a])
      else (t, [])
    | _, _ => (t, [])

/-- The `scheduler-tick` command (`main.scheduler_tick` and
`scheduler.scheduler_tick_impl`): return early on an empty list; if any task
is due, initialise the API (`setupOk` models success of `setup_runpod_api`)
and defer everything when that fails; otherwise run the loop and save iff
anything changed. -/
def scheduler_tick (setupOk : Bool) (stopResult : String → Option String)
    (now : Int) (tasks : List Task) : TickResult :=
  if tasks = [] then ⟨tasks, false, []⟩
  else
    let anyDue := tasks.any (isDuePending now)
    if anyDue && !setupOk then ⟨tasks, false, []⟩
    else
      let results := tasks.map (tickTask stopResult now)
      let stops := (results.map Prod.snd).flatten
      ⟨results.map Prod.fst, !stops.isEmpty, stops⟩

theorem tickTask_not_pending (stopResult : String → Option String) (now : Int)
    (t : Task) (h : t.status ≠ some "pending") :
    tickTask stopResult now t = (t, []) := by
  simp [tickTask, h]

/-- Executing `tickTask` a second time on the produced task is the identity
and performs no stop call. -/
theorem tickTask_idem (stopResult stopResult' : String → Option String)
    (now : Int) (t : Task) :
    tickTask stopResult' now (tickTask stopResult now t).1 =
      ((tickTask stopResult now t).1, []) := by
  by_cases hp : t.status = some "pending"
  case neg =>
    rw [tickTask_not_pending stopResult now t hp]
    exact tickTask_not_pending stopResult' now t hp
  case pos =>
  by_cases hd : now < t.when_epoch.getD 0
  case pos =>
    have h1 : tickTask stopResult now t = (t, []) := by
      unfold tickTask; simp [hp, hd]
    rw [h1]
    unfold tickTask; simp [hp, hd]
  case neg =>
  rcases ha : t.action with _ | act
  case none =>
    have h1 : tickTask stopResult now t = (t, []) := by
      unfold tickTask; simp [hp, hd, ha]
    rw [h1]
    unfold tickTask; simp [hp, hd, ha]
  rcases hb : t.aliasName with _ | a
  case none =>
    have h1 : tickTask stopResult now t = (t, []) := by
      unfold tickTask; simp [hp, hd, ha, hb]
    rw [h1]
    unfold tickTask; simp [hp, hd, ha, hb]
  by_cases hrun : act = "stop" ∧ a ≠ ""
  case neg =>
    have h1 : tickTask stopResult now t = (t, []) := by
      unfold tickTask; simp [hp, hd, ha, hb, hrun]
    rw [h1]
    unfold tickTask; simp [hp, hd, ha, hb, hrun]
  case pos =>
  rcases hs : stopResult a with _ | e
  · have h1 : tickTask stopResult now t =
        ({ t with status := some "completed" }, [a]) := by
      unfold tickTask; simp [hp, hd, ha, hb, hrun, hs]
    rw [h1]
    exact tickTask_not_pending stopResult' now _ (by simp)
  · have h1 : tickTask stopResult now t =
        ({ t with status := some "failed", last_error := some e }, [a]) := by
      unfold tickTask; simp [hp, hd, ha, hb, hrun, hs]
    rw [h1]
    exact tickTask_not_pending stopResult' now _ (by simp)

theorem map_fst_pair_nil {α β : Type} (l : List α) :
    (l.map (fun t => (t, ([] : List β)))).map Prod.fst = l := by
  induction l with
  | nil => rfl
  | cons a l ih => simp_all

theorem flatten_snd_pair_nil {α β : Type} (l : List α) :
    ((l.map (fun t => (t, ([] : List β)))).map Prod.snd).flatten = [] := by
  induction l with
  | nil => rfl
  | cons a l ih => simp_all

theorem tick_no_due (setupOk : Bool) (stopResult : String → Option String)
    (now : Int) (tasks : List Task)
    (h : tasks.any (isDuePending now) = false) :
    scheduler_tick setupOk stopResult now tasks = ⟨tasks, false, []⟩ := by
  unfold scheduler_tick
  by_cases he : tasks = []
  · simp [he]
  · have hmap : tasks.map (tickTask stopResult now) =
        tasks.map (fun t => (t, [])) := by
      apply List.map_congr_left
      intro t ht
      by_cases hp : t.status = some "pending"
      · have hd : isDuePending now t = false := by
          simpa using List.any_eq_false.mp h t ht
        unfold isDuePending at hd
        simp only [hp, beq_self_eq_true, Bool.true_and,
          decide_eq_false_iff_not] at hd
        unfold tickTask
        simp [hp, not_le.mp hd]
      · exact tickTask_not_pending stopResult now t hp
    simp only [if_neg he, h, Bool.false_and, Bool.false_eq_true, if_false, hmap]
    rw [map_fst_pair_nil, flatten_snd_pair_nil]
    rfl

theorem tickTask_fst_status (stopResult : String → Option String) (now : Int)
    (t : Task) :
    (tickTask stopResult now t).1 = t ∨
      (tickTask stopResult now t).1.status = some "completed" ∨
      (tickTask stopResult now t).1.status = some "failed" := by
  unfold tickTask
  split
  · exact Or.inl rfl
  split
  · exact Or.inl rfl
  split
  · split
    · split
      · exact Or.inr (Or.inl rfl)
      · exact Or.inr (Or.inr rfl)
    · exact Or.inl rfl
  · exact Or.inl rfl

theorem mem_zip_self {α : Type} {l : List α} {p : α × α} (h : p ∈ l.zip l) :
    p.1 = p.2 := by
  induction l with
  | nil => simp at h
  | cons a l ih =>
    simp only [List.zip_cons_cons, List.mem_cons] at h
    rcases h with h | h
    · subst h; rfl
    · exact ih h

theorem mem_zip_map {α β : Type} {f : α → β} {l : List α} {p : α × β}
    (h : p ∈ l.zip (l.map f)) : p.2 = f p.1 := by
  induction l with
  | nil => simp at h
  | cons a l ih =>
    simp only [List.map_cons, List.zip_cons_cons, List.mem_cons] at h
    rcases h with h | h
    · subst h; rfl
    · exact ih h

theorem tick_executed (stopResult : String → Option String) (now : Int)
    (tasks : List Task) (he : tasks ≠ [])
    (hd : tasks.any (isDuePending now) = true) :
    scheduler_tick true stopResult now tasks =
      ⟨tasks.map (fun t => (tickTask stopResult now t).1),
        !((tasks.map (fun t => (tickTask stopResult now t).2)).flatten).isEmpty,
        (tasks.map (fun t => (tickTask stopResult now t).2)).flatten⟩ := by
  unfold scheduler_tick
  simp [if_neg he, hd, List.map_map, Function.comp_def]

/-- C2: running `scheduler_tick` twice back-to-back at a fixed instant yields
the same final task set as running it once; the second tick performs no stop
call (no task action is attempted twice); and any task a tick moves out of
PENDING carries a terminal status (`completed` or `failed`). -/
theorem tick_idempotent (setupOk : Bool) (stopResult : String → Option String)
    (now : Int) (tasks : List Task) :
    (scheduler_tick setupOk stopResult now
        (scheduler_tick setupOk stopResult now tasks).tasks).tasks =
      (scheduler_tick setupOk stopResult now tasks).tasks ∧
    (scheduler_tick setupOk stopResult now
        (scheduler_tick setupOk stopResult now tasks).tasks).stops = [] ∧
    ∀ p ∈ tasks.zip (scheduler_tick setupOk stopResult now tasks).tasks,
      p.1.status = some "pending" →
        p.2.status = some "pending" ∨ p.2.status = some "completed" ∨
          p.2.status = some "failed" := by
  by_cases he : tasks = []
  · subst he
    refine ⟨?_, ?_, ?_⟩ <;> simp [scheduler_tick]
  by_cases hd : tasks.any (isDuePending now) = false
  · rw [tick_no_due setupOk stopResult now tasks hd]
    rw [tick_no_due setupOk stopResult now tasks hd]
    refine ⟨rfl, rfl, ?_⟩
    intro p hp hstat
    exact Or.inl (mem_zip_self hp ▸ hstat)
  · have hd' : tasks.any (isDuePending now) = true := by
      cases h : tasks.any (isDuePending now)
      · exact absurd h hd
      · rfl
    cases hs : setupOk
    · -- API setup fails: both ticks defer everything
      have h1 : scheduler_tick false stopResult now tasks = ⟨tasks, false, []⟩ := by
        unfold scheduler_tick
        simp [if_neg he, hd']
      rw [h1]; rw [h1]
      refine ⟨rfl, rfl, ?_⟩
      intro p hp hstat
      exact Or.inl (mem_zip_self hp ▸ hstat)
    · -- API setup succeeds: the first tick executes, the second is a no-op
      rw [tick_executed stopResult now tasks he hd']
      have hne : tasks.map (fun t => (tickTask stopResult now t).1) ≠ [] := by
        intro hcontra
        exact he (List.map_eq_nil_iff.mp hcontra)
      have hmapfst : (tasks.map (fun t => (tickTask stopResult now t).1)).map
          (fun t => (tickTask stopResult now t).1) =
          tasks.map (fun t => (tickTask stopResult now t).1) := by
        rw [List.map_map]
        apply List.map_congr_left
        intro t _
        show (tickTask stopResult now (tickTask stopResult now t).1).1 =
          (tickTask stopResult now t).1
        rw [tickTask_idem stopResult stopResult now t]
      have hmapsnd : ((tasks.map (fun t => (tickTask stopResult now t).1)).map
          (fun t => (tickTask stopResult now t).2)).flatten = [] := by
        rw [List.map_map]
        have : (tasks.map ((fun t => (tickTask stopResult now t).2) ∘
            fun t => (tickTask stopResult now t).1)) =
            tasks.map (fun _ => []) := by
          apply List.map_congr_left
          intro t _
          show (tickTask stopResult now (tickTask stopResult now t).1).2 =
            ([] : List String)
          rw [tickTask_idem stopResult stopResult now t]
        rw [this]
        have : tasks.map (fun _ : Task => ([] : List String)) =
            (tasks.map (fun t : Task => (t, ([] : List String)))).map Prod.snd := by
          rw [List.map_map]; rfl
        rw [this]
        exact flatten_snd_pair_nil tasks
      constructor
      · cases hdue2 : (tasks.map (fun t => (tickTask stopResult now t).1)).any
            (isDuePending now)
        · rw [tick_no_due true stopResult now _ hdue2]
        · rw [tick_executed stopResult now _ hne hdue2]
          exact hmapfst
      constructor
      · cases hdue2 : (tasks.map (fun t => (tickTask stopResult now t).1)).any
            (isDuePending now)
        · rw [tick_no_due true stopResult now _ hdue2]
        · rw [tick_executed stopResult now _ hne hdue2]
          exact hmapsnd
      · intro p hp hstat
        have h2 := mem_zip_map hp
        rw [h2]
        rcases tickTask_fst_status stopResult now p.1 with h3 | h3 | h3
        · rw [h3]; exact Or.inl hstat
        · exact Or.inr (Or.inl h3)
        · exact Or.inr (Or.inr h3)

/-- C10: when initialisation of the provider credential fails
(`setupOk = false`) and at least one task is due, the tick returns without
mutating any task, without saving the task file, and without attempting any
stop action; every due task stays PENDING for a later tick. -/
theorem tick_setup_failure_defers (stopResult : String → Option String)
    (now : Int) (tasks : List Task)
    (h : tasks.any (isDuePending now) = true) :
    scheduler_tick false stopResult now tasks = ⟨tasks, false, []⟩ := by
  have he : tasks ≠ [] := by
    rintro rfl
    simp at h
  unfold scheduler_tick
  simp [if_neg he, h]

/-- Witness for C10 at a concrete task list with one due pending stop task. -/
theorem tick_setup_failure_defers_witness :
    [({ id := some "t1", action := some "stop", aliasName := some "x",
        when_epoch := some 10, status := some "pending", last_error := none } :
      Task)].any (isDuePending 20) = true ∧
    scheduler_tick false (fun _ => none) 20
        [{ id := some "t1", action := some "stop", aliasName := some "x",
           when_epoch := some 10, status := some "pending", last_error := none }] =
      ⟨[{ id := some "t1", action := some "stop", aliasName := some "x",
          when_epoch := some 10, status := some "pending", last_error := none }],
        false, []⟩ :=
  ⟨by decide, tick_setup_failure_defers (fun _ => none) 20 _ (by decide)⟩

end RpTick

namespace RpTasks

/-- Task status enumeration.  Modelled from the spec: `core/models.py` is not
under src/; the four states and their names are those of §4.5.2 and of the
callers in `core/scheduler.py`. -/
inductive TaskStatus
  | pending
  | completed
  | cancelled
  | failed
deriving DecidableEq

/-- A scheduled task of the typed `Scheduler` service.  Modelled from the
spec: `core/models.py` is not under src/; fields follow §3 (Scheduled Task)
and the constructor calls in `core/scheduler.py`. -/
structure ScheduleTask where
  id : String
  action : String
  aliasName : String
  when_epoch : Int
  status : TaskStatus
  created_at : String
  last_error : Option String
deriving DecidableEq

/-- The method `Scheduler.clear_completed_tasks` of `core/scheduler.py`:
keep every task whose status is not COMPLETED, save when anything was
removed, and return the number removed. -/
def clear_completed_tasks (tasks : List ScheduleTask) :
    List ScheduleTask × Nat × Bool :=
  let remaining := tasks.filter (fun t => t.status ≠ TaskStatus.completed)
  let removed := tasks.length - remaining.length
  (remaining, removed, decide (0 < removed))

/-- The helper `auto_clear_completed_tasks` of `scheduling.py` (and the
identical `_auto_clear_completed_tasks` of `main.py` and `scheduler.py`),
which works on raw status strings: keep every task whose status string is
not `"completed"`. -/
def auto_clear_completed_tasks (tasks : List RpTick.Task) :
    List RpTick.Task × Nat :=
  if tasks.length = 0 then (tasks, 0)
  else
    let pendingOrFailed := tasks.filter (fun t => t.status != some "completed")
    (pendingOrFailed, tasks.length - pendingOrFailed.length)

/-- The method `Scheduler.cancel_task` of `core/scheduler.py`
(`schedule_cancel` of `main.py` implements the same transition on raw
dictionaries): find the task by id; if the status is COMPLETED or CANCELLED
return it unchanged without saving; otherwise set CANCELLED and save. -/
def cancel_task (tasks : List ScheduleTask) (tid : String) :
    Except String (List ScheduleTask × ScheduleTask × Bool) :=
  match tasks.find? (fun t => t.id == tid) with
  | none => .error ("Task not found: " ++ tid)
  | some t =>
    if t.status = TaskStatus.completed ∨ t.status = TaskStatus.cancelled then
      .ok (tasks, t, false)
    else
      .ok (cancelFirst tasks tid, { t with status := TaskStatus.cancelled }, true)
where
  /-- Set the status of the first task carrying the given id to CANCELLED,
  mirroring the in-place mutation of the object returned by `get_task`. -/
  cancelFirst : List ScheduleTask → String → List ScheduleTask
    | [], _ => []
    | t :: ts, tid =>
      if t.id == tid then { t with status := TaskStatus.cancelled } :: ts
      else t :: cancelFirst ts tid

theorem length_filter_add_countP (tasks : List ScheduleTask) :
    (tasks.filter (fun t => t.status ≠ TaskStatus.completed)).length +
      tasks.countP (fun t => t.status == TaskStatus.completed) =
      tasks.length := by
  induction tasks with
  | nil => rfl
  | cons t ts ih =>
    rw [List.filter_cons, List.countP_cons]
    by_cases h : t.status = TaskStatus.completed
    · have h1 : decide (t.status ≠ TaskStatus.completed) = false := by
        simp [h]
      have h2 : (t.status == TaskStatus.completed) = true := by
        simp [h]
      rw [h1, h2]
      show (List.filter _ ts).length + (List.countP _ ts + 1) = ts.length + 1
      omega
    · have h1 : decide (t.status ≠ TaskStatus.completed) = true := by
        simp [h]
      have h2 : (t.status == TaskStatus.completed) = false := by
        simp [h]
      rw [h1, h2]
      simp only [if_pos, Bool.false_eq_true, if_false, List.length_cons]
      omega

/-- Counterexample to C3: a CANCELLED task is retained by
`clear_completed_tasks`, although the claim requires it to be removed and
counted. -/
theorem clear_completed_retains_cancelled :
    clear_completed_tasks
        [{ id := "t1", action := "stop", aliasName := "x", when_epoch := 0,
           status := TaskStatus.cancelled, created_at := "c", last_error := none }] =
      ([{ id := "t1", action := "stop", aliasName := "x", when_epoch := 0,
          status := TaskStatus.cancelled, created_at := "c", last_error := none }],
        0, false) := by
  decide

/-- C3 (amended): `clear_completed_tasks` removes exactly the tasks whose
status is COMPLETED and returns their count; PENDING, FAILED and CANCELLED
tasks are retained unchanged, in order.  The string-level variants
(`auto_clear_completed_tasks`) behave identically on the `"completed"`
status string. -/
theorem clear_completed_only_completed (tasks : List ScheduleTask)
    (rawTasks : List RpTick.Task) :
    ((clear_completed_tasks tasks).1 =
        tasks.filter (fun t => t.status ≠ TaskStatus.completed) ∧
      (clear_completed_tasks tasks).2.1 =
        tasks.countP (fun t => t.status == TaskStatus.completed) ∧
      ∀ t, t ∈ (clear_completed_tasks tasks).1 ↔
        t ∈ tasks ∧ t.status ≠ TaskStatus.completed) ∧
    ((auto_clear_completed_tasks rawTasks).1 =
        rawTasks.filter (fun t => t.status != some "completed") ∧
      ∀ t, t ∈ (auto_clear_completed_tasks rawTasks).1 ↔
        t ∈ rawTasks ∧ t.status ≠ some "completed") := by
  constructor
  · refine ⟨rfl, ?_, ?_⟩
    · show tasks.length -
        (tasks.filter (fun t => t.status ≠ TaskStatus.completed)).length = _
      have := length_filter_add_countP tasks
      omega
    · intro t
      show t ∈ tasks.filter (fun t => t.status ≠ TaskStatus.completed) ↔ _
      rw [List.mem_filter]
      simp
  · have hfilter : (auto_clear_completed_tasks rawTasks).1 =
        rawTasks.filter (fun t => t.status != some "completed") := by
      unfold auto_clear_completed_tasks
      by_cases h : rawTasks.length = 0
      · rw [List.length_eq_zero] at h
        subst h
        rfl
      · rw [if_neg h]
    refine ⟨hfilter, ?_⟩
    intro t
    rw [hfilter, List.mem_filter]
    simp

/-- Counterexample to C4: `cancel_task` on a FAILED task is not a no-op; the
task transitions to CANCELLED and the list is saved. -/
theorem cancel_task_failed_not_noop :
    cancel_task
        [{ id := "t1", action := "stop", aliasName := "x", when_epoch := 0,
           status := TaskStatus.failed, created_at := "c", last_error := some "e" }]
        "t1" =
      .ok ([{ id := "t1", action := "stop", aliasName := "x", when_epoch := 0,
              status := TaskStatus.cancelled, created_at := "c",
              last_error := some "e" }],
        { id := "t1", action := "stop", aliasName := "x", when_epoch := 0,
          status := TaskStatus.cancelled, created_at := "c",
          last_error := some "e" }, true) := by
  rfl

/-- C4 (amended): `cancel_task` is a no-op returning the task unchanged (and
does not save) exactly when the task's status is COMPLETED or CANCELLED; a
PENDING task — and, unlike the claim, also a FAILED task — transitions to
CANCELLED and the list is saved. -/
theorem cancel_task_statuses (tasks : List ScheduleTask) (tid : String)
    (t : ScheduleTask) (hfind : tasks.find? (fun t => t.id == tid) = some t) :
    ((t.status = TaskStatus.completed ∨ t.status = TaskStatus.cancelled) →
      cancel_task tasks tid = .ok (tasks, t, false)) ∧
    ((t.status = TaskStatus.pending ∨ t.status = TaskStatus.failed) →
      cancel_task tasks tid =
        .ok (cancel_task.cancelFirst tasks tid,
          { t with status := TaskStatus.cancelled }, true)) := by
  constructor
  · intro h
    unfold cancel_task
    rw [hfind]
    simp [h]
  · intro h
    have h2 : ¬(t.status = TaskStatus.completed ∨ t.status = TaskStatus.cancelled) := by
      rcases h with h | h <;> rw [h] <;> rintro (hc | hc) <;> exact
        TaskStatus.noConfusion hc
    unfold cancel_task
    rw [hfind]
    simp [h2]

/-- Witness for C4 at a concrete pending task. -/
theorem cancel_task_statuses_witness :
    ([({ id := "t1", action := "stop", aliasName := "x", when_epoch := 0,
         status := TaskStatus.pending, created_at := "c", last_error := none } :
       ScheduleTask)].find? (fun t => t.id == "t1") =
      some { id := "t1", action := "stop", aliasName := "x", when_epoch := 0,
             status := TaskStatus.pending, created_at := "c",
             last_error := none }) ∧
    cancel_task
        [{ id := "t1", action := "stop", aliasName := "x", when_epoch := 0,
           status := TaskStatus.pending, created_at := "c", last_error := none }]
        "t1" =
      .ok ([{ id := "t1", action := "stop", aliasName := "x", when_epoch := 0,
              status := TaskStatus.cancelled, created_at := "c",
              last_error := none }],
        { id := "t1", action := "stop", aliasName := "x", when_epoch := 0,
          status := TaskStatus.cancelled, created_at := "c",
          last_error := none }, true) := by
  refine ⟨by decide, ?_⟩
  have h := (cancel_task_statuses
    [{ id := "t1", action := "stop", aliasName := "x", when_epoch := 0,
       status := TaskStatus.pending, created_at := "c", last_error := none }]
    "t1"
    { id := "t1", action := "stop", aliasName := "x", when_epoch := 0,
      status := TaskStatus.pending, created_at := "c", last_error := none }
    (by decide)).2 (Or.inl rfl)
  rw [h]
  rfl

end RpTasks

namespace RpStore

/-- File system micro-operations performed by the save routines: truncating
open (`open(path, "w")`), a write to an open file, and `Path.replace`
(rename over the target). -/
inductive FsOp
  | openTrunc (path : String)
  | writeStr (path : String) (data : String)
  | rename (src : String) (dst : String)
deriving DecidableEq

/-- File system contents as an association list from path to content. -/
def FsState := List (String × String)

def getPath (st : FsState) (p : String) : Option String :=
  (st.find? (fun kv => kv.1 == p)).map (·.2)

def setPath (st : FsState) (p : String) (c : String) : FsState :=
  (p, c) :: st.filter (fun kv => kv.1 != p)

def delPath (st : FsState) (p : String) : FsState :=
  st.filter (fun kv => kv.1 != p)

def applyOp (st : FsState) : FsOp → FsState
  | .openTrunc p => setPath st p ""
  | .writeStr p d => setPath st p ((getPath st p).getD "" ++ d)
  | .rename src dst =>
    match getPath st src with
    | none => st
    | some c => setPath (delPath st src) dst c

def runOps (ops : List FsOp) (st : FsState) : FsState :=
  ops.foldl applyOp st

/-- Operation trace of `PodManager._save_config` (and of `_save_aliases` /
`save_pod_configs`): the target `pods.json` is opened with mode `"w"` —
truncating it — and the document plus a trailing newline are written to it
directly.  No temporary file and no rename are involved. -/
def saveConfigOps (doc : String) : List FsOp :=
  [.openTrunc "pods.json", .writeStr "pods.json" doc,
    .writeStr "pods.json" "\n"]

/-- Operation trace of `Scheduler._save_tasks` (and of
`_save_schedule_tasks` / `save_schedule_tasks`): the document plus a
trailing newline are written to the sibling `schedule.json.tmp`
(`SCHEDULE_FILE.with_suffix(".json.tmp")`) which is then renamed over
`schedule.json`. -/
def saveTasksOps (doc : String) : List FsOp :=
  [.openTrunc "schedule.json.tmp", .writeStr "schedule.json.tmp" doc,
    .writeStr "schedule.json.tmp" "\n",
    .rename "schedule.json.tmp" "schedule.json"]

theorem getPath_setPath_same (st : FsState) (p c : String) :
    getPath (setPath st p c) p = some c := by
  unfold getPath setPath
  simp [List.find?_cons]

theorem find_filter_ne (st : RpStore.FsState) (p q : String) (h : p ≠ q) :
    (st.filter (fun kv => kv.1 != p)).find? (fun kv => kv.1 == q) =
      st.find? (fun kv => kv.1 == q) := by
  induction st with
  | nil => rfl
  | cons kv l ih =>
    by_cases hq : kv.1 = q
    · have h1 : (kv.1 != p) = true := by
        simp [hq, Ne.symm h]
      rw [List.filter_cons, h1]
      simp only [if_pos]
      rw [List.find?_cons, List.find?_cons]
      have h2 : (kv.1 == q) = true := by simp [hq]
      rw [h2]
    · rw [List.filter_cons]
      by_cases hp : kv.1 = p
      · have h1 : (kv.1 != p) = false := by simp [hp]
        rw [h1]
        simp only [Bool.false_eq_true, if_false]
        rw [ih, List.find?_cons]
        have h2 : (kv.1 == q) = false := by simp [hq]
        rw [h2]
      · have h1 : (kv.1 != p) = true := by simp [hp]
        rw [h1]
        simp only [if_pos]
        rw [List.find?_cons, List.find?_cons]
        have h2 : (kv.1 == q) = false := by simp [hq]
        rw [h2, ih]

theorem getPath_setPath_other (st : FsState) (p q c : String) (h : p ≠ q) :
    getPath (setPath st p c) q = getPath st q := by
  unfold getPath setPath
  have hb : ((p, c).1 == q) = false := by
    simp [h]
  rw [List.find?_cons, hb]
  exact congrArg (Option.map (·.2)) (find_filter_ne st p q h)

/-- Counterexample to C1: the `pods.json` save trace truncates the target in
place, so after its first operation the store file holds neither the old nor
the new document. -/
theorem save_config_not_atomic :
    getPath (runOps ((saveConfigOps "new-doc").take 1) [("pods.json", "old-doc")])
        "pods.json" = some "" ∧
    ("" : String) ≠ "old-doc" ∧ ("" : String) ≠ "new-doc" ++ "\n" :=
  ⟨rfl, by decide, by decide⟩

/-- C1 (amended): the `schedule.json` task-list save is atomic — at every
prefix of its operation trace the target file holds either its original
content or the complete new document — while the `pods.json` store save
writes the target in place (see the counterexample). -/
theorem save_tasks_atomic (doc : String) (st : FsState) (k : Nat) :
    getPath (runOps ((saveTasksOps doc).take k) st) "schedule.json" =
        getPath st "schedule.json" ∨
      getPath (runOps ((saveTasksOps doc).take k) st) "schedule.json" =
        some (doc ++ "\n") := by
  have hne : ("schedule.json.tmp" : String) ≠ "schedule.json" := by decide
  match k with
  | 0 => exact Or.inl rfl
  | 1 =>
    left
    simp only [saveTasksOps, List.take, runOps, List.foldl, applyOp]
    exact getPath_setPath_other st _ _ _ hne
  | 2 =>
    left
    simp only [saveTasksOps, List.take, runOps, List.foldl, applyOp]
    rw [getPath_setPath_other _ _ _ _ hne, getPath_setPath_other _ _ _ _ hne]
  | 3 =>
    left
    simp only [saveTasksOps, List.take, runOps, List.foldl, applyOp]
    rw [getPath_setPath_other _ _ _ _ hne, getPath_setPath_other _ _ _ _ hne,
      getPath_setPath_other _ _ _ _ hne]
  | (n + 4) =>
    right
    have htake : (saveTasksOps doc).take (n + 4) = saveTasksOps doc := by
      apply List.take_of_length_le
      simp [saveTasksOps]
    rw [htake]
    simp only [saveTasksOps, runOps, List.foldl, applyOp]
    simp [getPath_setPath_same]

/-- JSON values as produced by `json.load`.  Object keys are strings, as in
Python. -/
inductive Json
  | null
  | boolean (b : Bool)
  | num (n : Int)
  | str (s : String)
  | arr (xs : List Json)
  | obj (kvs : List (String × Json))

/-- Python `str()` coercion applied by the legacy branch of `_load_config`
(`{str(k): str(v) for k, v in data.items()}`).  Container reprs are
placeholders: the legacy documents of the claim are flat string maps, and no
theorem below inspects the container cases. -/
def jsonToPyStr : Json → String
  | .null => "None"
  | .boolean true => "True"
  | .boolean false => "False"
  | .num n => toString n
  | .str s => s
  | .arr _ => "<list repr>"
  | .obj _ => "<dict repr>"

/-- On-disk state of the `pods.json` store file as seen by `_load_config`:
absent, present but not valid JSON, or parsed into a JSON value. -/
inductive StoreFile
  | missing
  | unparseable
  | parsed (j : Json)

/-- The typed store document.  Modelled from the spec: `rp/core/models.py`
(the `AppConfig` pydantic model) is not under src/; its fields follow §4.1 —
`aliases`, `pod_templates`, `scheduled_tasks`, `pod_metadata`. -/
structure AppConfig where
  aliases : List (String × String)
  pod_templates : List (String × Json)
  scheduled_tasks : List Json
  pod_metadata : List (String × Json)

def emptyAppConfig : AppConfig := ⟨[], [], [], []⟩

def jsonLookup (kvs : List (String × Json)) (key : String) : Option Json :=
  (kvs.find? (fun kv => kv.1 == key)).map (·.2)

def hasKey (kvs : List (String × Json)) (key : String) : Bool :=
  (jsonLookup kvs key).isSome

/-- Modelled from the spec: `AppConfig.model_validate` lives in the missing
`rp/core/models.py`.  Per §4.1 `load()` never fails, so validation is
modelled as total extraction of the four modern keys (string-valued entries
for the alias map, opaque JSON for the rest). -/
def modelValidate (kvs : List (String × Json)) : AppConfig where
  aliases :=
    match jsonLookup kvs "aliases" with
    | some (.obj m) =>
      m.filterMap (fun kv =>
        match kv.2 with
        | .str v => some (kv.1, v)
        | _ => none)
    | _ => []
  pod_templates :=
    match jsonLookup kvs "pod_templates" with
    | some (.obj m) => m
    | _ => []
  scheduled_tasks :=
    match jsonLookup kvs "scheduled_tasks" with
    | some (.arr xs) => xs
    | _ => []
  pod_metadata :=
    match jsonLookup kvs "pod_metadata" with
    | some (.obj m) => m
    | _ => []

/-- The loader `PodManager._load_config` of `rp/core/pod_manager.py`:
missing and unparseable files yield an empty document; a JSON object with
any of the keys `aliases`, `pod_templates`, `scheduled_tasks` is validated
as a modern document; any other object is the legacy flat alias map; a
non-object JSON value yields an empty document. -/
def loadConfig : StoreFile → AppConfig
  | .missing => emptyAppConfig
  | .unparseable => emptyAppConfig
  | .parsed j =>
    match j with
    | .obj kvs =>
      if hasKey kvs "aliases" || hasKey kvs "pod_templates" ||
          hasKey kvs "scheduled_tasks" then
        modelValidate kvs
      else
        { emptyAppConfig with
            aliases := kvs.map (fun kv => (kv.1, jsonToPyStr kv.2)) }
    | _ => emptyAppConfig

/-- C9: loading is total over every on-disk state (the function returns a
document, never an error); a missing or unparseable file yields the empty
modern document; and a legacy flat object — one containing none of the
modern keys of §4.1 — yields a document holding exactly those aliases with
empty templates, tasks and metadata.  Spec-modelled: `AppConfig` and its
validation live in `rp/core/models.py`, which is not under src/. -/
theorem load_config_total_and_legacy (kvs : List (String × Json))
    (hlegacy : hasKey kvs "aliases" = false ∧
      hasKey kvs "pod_templates" = false ∧
      hasKey kvs "scheduled_tasks" = false ∧
      hasKey kvs "pod_metadata" = false) :
    loadConfig .missing = emptyAppConfig ∧
    loadConfig .unparseable = emptyAppConfig ∧
    loadConfig (.parsed (.obj kvs)) =
      { aliases := kvs.map (fun kv => (kv.1, jsonToPyStr kv.2)),
        pod_templates := [], scheduled_tasks := [], pod_metadata := [] } := by
  refine ⟨rfl, rfl, ?_⟩
  have hred : loadConfig (.parsed (.obj kvs)) =
      if (hasKey kvs "aliases" || hasKey kvs "pod_templates" ||
          hasKey kvs "scheduled_tasks") = true then
        modelValidate kvs
      else
        { emptyAppConfig with
            aliases := kvs.map (fun kv => (kv.1, jsonToPyStr kv.2)) } := rfl
  rw [hred, hlegacy.1, hlegacy.2.1, hlegacy.2.2.1]
  rfl

/-- Witness for C9 at the concrete legacy document of §8 scenario 6. -/
theorem load_config_total_and_legacy_witness :
    loadConfig (.parsed (.obj [("foo", .str "p1"), ("bar", .str "p2")])) =
      { aliases := [("foo", "p1"), ("bar", "p2")], pod_templates := [],
        scheduled_tasks := [], pod_metadata := [] } := by
  have h := load_config_total_and_legacy
    [("foo", .str "p1"), ("bar", .str "p2")] ⟨rfl, rfl, rfl, rfl⟩
  exact h.2.2

end RpStore

namespace RpPod

inductive PodStatus
  | running
  | stopped
  | invalid
deriving DecidableEq

/-- Outcomes of the provider API calls relevant to `destroy_pod`:
`get_pod_status` may return a status or raise, and `stop_pod` /
`terminate_pod` may succeed or raise with a message. -/
structure ApiOutcomes where
  get_pod_status : Except String PodStatus
  stop_pod : Except String Unit
  terminate_pod : Except String Unit

inductive ApiCall
  | getStatusCall
  | stopCall
  | terminateCall
  | saveCall
deriving DecidableEq

def lookupAlias (aliases : List (String × String)) (a : String) :
    Option String :=
  (aliases.find? (fun kv => kv.1 == a)).map (·.2)

/-- Best-effort stop of `destroy_pod`: fetch the status, stop when RUNNING,
and swallow every exception.  Returns the calls it attempted. -/
def bestEffortStop (api : ApiOutcomes) : List ApiCall :=
  match api.get_pod_status with
  | .error _ => [.getStatusCall]
  | .ok s =>
    if s = PodStatus.running then [.getStatusCall, .stopCall]
    else [.getStatusCall]

/-- The method `PodManager.destroy_pod` (identical in `rp/core` and
`runpod_cli_wrapper/core`): resolve the alias, best-effort stop, terminate
— propagating its error — then remove the alias (which saves the store) and
return the pod id.  The result carries the final alias map and the trace of
provider calls. -/
def destroy_pod (api : ApiOutcomes) (aliases : List (String × String))
    (a : String) :
    Except String String × List (String × String) × List ApiCall :=
  match lookupAlias aliases a with
  | none => (.error ("Alias not found: " ++ a), aliases, [])
  | some podId =>
    let trace := bestEffortStop api
    match api.terminate_pod with
    | .error e => (.error e, aliases, trace ++ [.terminateCall])
    | .ok _ =>
      (.ok podId, aliases.eraseP (fun kv => kv.1 == a),
        trace ++ [.terminateCall, .saveCall])

/-- C8: for a bound alias, `destroy_pod` removes the alias from the store
and returns the pod id exactly when `terminate_pod` succeeded; when
terminate raises, the error propagates and the alias map is unchanged (and
the store is never saved), so the operation can be retried; and the
outcomes of the best-effort status/stop calls never influence the result or
the final store. -/
theorem destroy_pod_contract (api : ApiOutcomes)
    (aliases : List (String × String)) (a pid : String)
    (h : lookupAlias aliases a = some pid) :
    (∀ u, api.terminate_pod = .ok u →
      destroy_pod api aliases a =
        (.ok pid, aliases.eraseP (fun kv => kv.1 == a),
          bestEffortStop api ++ [.terminateCall, .saveCall])) ∧
    (∀ e, api.terminate_pod = .error e →
      destroy_pod api aliases a =
        (.error e, aliases, bestEffortStop api ++ [.terminateCall]) ∧
      ApiCall.saveCall ∉ (destroy_pod api aliases a).2.2) ∧
    (∀ gs st, ((destroy_pod { api with get_pod_status := gs, stop_pod := st }
        aliases a).1 = (destroy_pod api aliases a).1 ∧
      (destroy_pod { api with get_pod_status := gs, stop_pod := st }
        aliases a).2.1 = (destroy_pod api aliases a).2.1)) := by
  refine ⟨?_, ?_, ?_⟩
  · intro u hu
    unfold destroy_pod
    rw [h, hu]
  · intro e he
    constructor
    · unfold destroy_pod
      rw [h, he]
    · unfold destroy_pod
      rw [h, he]
      show ApiCall.saveCall ∉ bestEffortStop api ++ [ApiCall.terminateCall]
      unfold bestEffortStop
      rcases hgs : api.get_pod_status with e2 | s
      · show ApiCall.saveCall ∉ [ApiCall.getStatusCall] ++ [ApiCall.terminateCall]
        decide
      · show ApiCall.saveCall ∉
          (if s = PodStatus.running then
            [ApiCall.getStatusCall, ApiCall.stopCall]
          else [ApiCall.getStatusCall]) ++ [ApiCall.terminateCall]
        by_cases hs : s = PodStatus.running
        · rw [if_pos hs]
          decide
        · rw [if_neg hs]
          decide
  · intro gs st
    unfold destroy_pod
    rw [h]
    match htp : api.terminate_pod with
    | .error e => exact ⟨rfl, rfl⟩
    | .ok u => exact ⟨rfl, rfl⟩

/-- Witness for C8: destroy on a concrete store where terminate raises
leaves the store unchanged, and where it succeeds removes the alias. -/
theorem destroy_pod_contract_witness :
    destroy_pod
        { get_pod_status := .ok PodStatus.running, stop_pod := .error "stop-err",
          terminate_pod := .error "term-err" } [("x", "p1")] "x" =
      (.error "term-err", [("x", "p1")],
        [ApiCall.getStatusCall, ApiCall.stopCall, ApiCall.terminateCall]) ∧
    destroy_pod
        { get_pod_status := .ok PodStatus.running, stop_pod := .error "stop-err",
          terminate_pod := .ok () } [("x", "p1")] "x" =
      (.ok "p1", [],
        [ApiCall.getStatusCall, ApiCall.stopCall, ApiCall.terminateCall,
          ApiCall.saveCall]) := by
  constructor
  · exact ((destroy_pod_contract
      { get_pod_status := .ok PodStatus.running, stop_pod := .error "stop-err",
        terminate_pod := .error "term-err" } [("x", "p1")] "x" "p1" rfl).2.1
      "term-err" rfl).1
  · exact (destroy_pod_contract
      { get_pod_status := .ok PodStatus.running, stop_pod := .error "stop-err",
        terminate_pod := .ok () } [("x", "p1")] "x" "p1" rfl).1 () rfl

end RpPod

namespace RpList

theorem length_dropWhile_le {α : Type} (p : α → Bool) (l : List α) :
    (l.dropWhile p).length ≤ l.length := by
  induction l with
  | nil => simp
  | cons a l ih =>
    rw [List.dropWhile_cons]
    split
    · exact Nat.le_succ_of_le ih
    · simp

end RpList


namespace RpDur

/-- Python `\s` whitespace characters. -/
def isSpacePy (c : Char) : Bool :=
  c = ' ' || c = '\t' || c = '\n' || c = '\r' || c = '\x0b' || c = '\x0c'

/-- Duration unit letters of the regex `([dhms])` with `re.IGNORECASE`. -/
def isUnitChar (c : Char) : Bool :=
  c.toLower = 'd' || c.toLower = 'h' || c.toLower = 'm' || c.toLower = 's'

/-- Seconds multipliers of `DURATION_MULTIPLIERS`. -/
def unitMult (c : Char) : Nat :=
  if c = 'd' then 86400
  else if c = 'h' then 3600
  else if c = 'm' then 60
  else 1

def digitsToNat (ds : List Char) : Nat :=
  ds.foldl (fun acc c => acc * 10 + (c.toNat - 48)) 0

/-- Scanner states of the regex `(\d+)\s*([dhms])` under `finditer`:
outside any candidate match, inside the digit run `(\d+)` with accumulated
value `v`, or inside the whitespace `\s*` after the digits of value `v`. -/
inductive ScanMode
  | start
  | num (v : Nat)
  | ws (v : Nat)

/-- One left-to-right pass implementing `re.finditer` for
`(\d+)\s*([dhms])` (ignore-case): a maximal digit run, optional whitespace
and a unit letter yield a match `(value, lowercased unit)`; scanning
resumes right after the unit letter; characters that fit no match are
skipped; a digit after whitespace restarts the digit run, because the
earlier candidate cannot match at any of its positions. -/
def scanDur (m : ScanMode) : List Char → List (Nat × Char)
  | [] => []
  | c :: cs =>
    match m with
    | .start =>
      if c.isDigit then scanDur (.num (c.toNat - 48)) cs
      else scanDur .start cs
    | .num v =>
      if c.isDigit then scanDur (.num (v * 10 + (c.toNat - 48))) cs
      else if isUnitChar c then (v, c.toLower) :: scanDur .start cs
      else if isSpacePy c then scanDur (.ws v) cs
      else scanDur .start cs
    | .ws v =>
      if isSpacePy c then scanDur (.ws v) cs
      else if isUnitChar c then (v, c.toLower) :: scanDur .start cs
      else if c.isDigit then scanDur (.num (c.toNat - 48)) cs
      else scanDur .start cs

/-- Python `str.strip()` on a character list. -/
def pyStrip (l : List Char) : List Char :=
  ((l.dropWhile isSpacePy).reverse.dropWhile isSpacePy).reverse

def scanSum (l : List Char) : Nat :=
  ((scanDur .start l).map (fun m => m.1 * unitMult m.2)).sum

/-- The function `parse_duration_to_seconds` of `scheduling.py` /
`scheduler.py` (and `Scheduler.parse_duration_string` of
`core/scheduler.py`, whose separate empty-string guard is subsumed by the
positivity check): sum `value * multiplier` over every `finditer` match of
the stripped input and reject a non-positive total. -/
def parse_duration_to_seconds (text : String) : Except String Nat :=
  let total := scanSum (pyStrip text.data)
  if total ≤ 0 then .error ("Invalid --schedule-in value: " ++ text)
  else .ok total

/-- Claim-side duration grammar: the full string is a concatenation of
`<int><unit>` segments (a non-empty digit run followed by one of `d`, `h`,
`m`, `s`, case-insensitive), with the summed seconds as index. -/
inductive IsDurSegs : List Char → Nat → Prop
  | nil : IsDurSegs [] 0
  | seg (ds : List Char) (u : Char) (rest : List Char) (n : Nat) :
      ds ≠ [] → (∀ c ∈ ds, c.isDigit = true) → isUnitChar u = true →
      IsDurSegs rest n →
      IsDurSegs (ds ++ u :: rest) (digitsToNat ds * unitMult u.toLower + n)

theorem toLower_eq_self_of_not_upper {c : Char}
    (h : ¬(65 ≤ c.toNat ∧ c.toNat ≤ 90)) : c.toLower = c := by
  unfold Char.toLower
  rw [if_neg]
  intro hc
  exact h ⟨hc.1, hc.2⟩

theorem unit_not_digit {u : Char} (h : isUnitChar u = true) :
    u.isDigit = false := by
  by_cases hd : u.isDigit = true
  · exfalso
    have hval : 48 ≤ u.toNat ∧ u.toNat ≤ 57 := by
      unfold Char.isDigit at hd
      simp only [Bool.and_eq_true, decide_eq_true_eq] at hd
      exact ⟨hd.1, hd.2⟩
    have hlow : u.toLower = u := toLower_eq_self_of_not_upper (by omega)
    unfold isUnitChar at h
    rw [hlow] at h
    simp only [Bool.or_eq_true, decide_eq_true_eq] at h
    have h4 : u = 'd' ∨ u = 'h' ∨ u = 'm' ∨ u = 's' := by tauto
    rcases h4 with h2 | h2 | h2 | h2 <;> subst h2 <;>
      exact absurd hval (by decide)
  · simpa using hd

theorem space_cases {c : Char} (hs : isSpacePy c = true) :
    c = ' ' ∨ c = '\t' ∨ c = '\n' ∨ c = '\r' ∨ c = '\x0b' ∨ c = '\x0c' := by
  unfold isSpacePy at hs
  simp only [Bool.or_eq_true, decide_eq_true_eq] at hs
  tauto

theorem unit_not_space {u : Char} (h : isUnitChar u = true) :
    isSpacePy u = false := by
  by_cases hs : isSpacePy u = true
  · rcases space_cases hs with h2 | h2 | h2 | h2 | h2 | h2 <;> subst h2 <;>
      exact absurd h (by decide)
  · simpa using hs

theorem digit_not_space {c : Char} (h : c.isDigit = true) :
    isSpacePy c = false := by
  by_cases hs : isSpacePy c = true
  · rcases space_cases hs with h2 | h2 | h2 | h2 | h2 | h2 <;> subst h2 <;>
      exact absurd h (by decide)
  · simpa using hs

theorem scanDur_num_run (ds : List Char) (v : Nat) (u : Char)
    (rest : List Char) (hds : ∀ c ∈ ds, c.isDigit = true)
    (hu : isUnitChar u = true) :
    scanDur (.num v) (ds ++ u :: rest) =
      (ds.foldl (fun acc c => acc * 10 + (c.toNat - 48)) v, u.toLower) ::
        scanDur .start rest := by
  induction ds generalizing v with
  | nil =>
    show scanDur (.num v) (u :: rest) = _
    simp [scanDur, unit_not_digit hu, hu]
  | cons d ds ih =>
    have hd : d.isDigit = true := hds d (by simp)
    show scanDur (.num v) (d :: (ds ++ u :: rest)) = _
    simp only [scanDur, hd, if_pos, List.foldl_cons]
    exact ih _ (fun c hc => hds c (List.mem_cons_of_mem d hc))

theorem scanSum_cons_start (d : Char) (cs : List Char) (hd : d.isDigit = true) :
    scanDur .start (d :: cs) = scanDur (.num (d.toNat - 48)) cs := by
  simp [scanDur, hd]

/-- On a string that is a concatenation of duration segments the scanner
finds exactly those segments and sums them. -/
theorem scanSum_of_segs {l : List Char} {n : Nat} (h : IsDurSegs l n) :
    scanSum l = n := by
  induction h with
  | nil => rfl
  | seg ds u rest n hne hdig hu hrest ih =>
    rcases ds with _ | ⟨d, ds'⟩
    · exact absurd rfl hne
    · have hd : d.isDigit = true := hdig d (by simp)
      unfold scanSum
      show ((scanDur .start (d :: (ds' ++ u :: rest))).map
        (fun m => m.1 * unitMult m.2)).sum = _
      rw [scanSum_cons_start d _ hd,
        scanDur_num_run ds' (d.toNat - 48) u rest
          (fun c hc => hdig c (List.mem_cons_of_mem d hc)) hu]
      simp only [List.map_cons, List.sum_cons]
      unfold scanSum at ih
      rw [ih]
      have hfold : digitsToNat (d :: ds') =
          ds'.foldl (fun acc c => acc * 10 + (c.toNat - 48)) (d.toNat - 48) := by
        unfold digitsToNat
        rw [List.foldl_cons]
        norm_num
      rw [hfold]

theorem segs_head_digit {l : List Char} {n : Nat} (h : IsDurSegs l n)
    (c : Char) (cs : List Char) (hl : l = c :: cs) : c.isDigit = true := by
  cases h with
  | nil => exact absurd hl (by simp)
  | seg ds u rest n hne hdig hu hrest =>
    rcases ds with _ | ⟨d, ds'⟩
    · exact absurd rfl hne
    · have : d :: (ds' ++ u :: rest) = c :: cs := hl
      have hdc : d = c := (List.cons.injEq _ _ _ _ ▸ this).1
      exact hdc ▸ hdig d (by simp)

theorem segs_ends_unit {l : List Char} {n : Nat} (h : IsDurSegs l n) :
    l = [] ∨ ∃ m u, l = m ++ [u] ∧ isUnitChar u = true := by
  induction h with
  | nil => exact Or.inl rfl
  | seg ds u rest n hne hdig hu hrest ih =>
    right
    rcases ih with h2 | ⟨m, u2, h2, hu2⟩
    · subst h2
      exact ⟨ds, u, rfl, hu⟩
    · subst h2
      exact ⟨ds ++ u :: m, u2, by simp, hu2⟩

theorem segs_strip {l : List Char} {n : Nat} (h : IsDurSegs l n) :
    pyStrip l = l := by
  rcases hl : l with _ | ⟨c, cs⟩
  · rfl
  · subst hl
    have hc : c.isDigit = true := segs_head_digit h c cs rfl
    have h1 : (c :: cs).dropWhile isSpacePy = c :: cs := by
      rw [List.dropWhile_cons, if_neg]
      rw [digit_not_space hc]
      simp
    rcases segs_ends_unit h with h2 | ⟨m, u, h2, hu⟩
    · exact absurd h2 (by simp)
    · have h3 : (c :: cs).reverse.dropWhile isSpacePy = (c :: cs).reverse := by
        rw [h2, List.reverse_append]
        show (u :: m.reverse).dropWhile isSpacePy = u :: m.reverse
        rw [List.dropWhile_cons, if_neg]
        rw [unit_not_space hu]
        simp
      unfold pyStrip
      rw [h1, h3, List.reverse_reverse]

/-- Counterexample to C7: `"x1s"` is not a concatenation of
`<int><unit>` segments, yet duration parsing accepts it and returns 1,
because `finditer` skips the unmatched leading character. -/
theorem parse_duration_garbage_counterexample :
    parse_duration_to_seconds "x1s" = .ok 1 ∧
      ¬∃ n, IsDurSegs "x1s".data n := by
  refine ⟨rfl, ?_⟩
  rintro ⟨n, h⟩
  have := segs_head_digit h 'x' ['1', 's'] rfl
  exact absurd this (by decide)

/-- C7 (amended): duration parsing sums all `<int><unit>` matches found
anywhere in the input (unit in d/h/m/s, case-insensitive, optional
whitespace between number and unit; characters fitting no match are
skipped) and succeeds iff that sum is positive.  In particular, on a string
that IS a concatenation of `<int><unit>` segments it returns the summed
seconds exactly when they are positive — so `"0m"` is rejected and
`"0h0m1s"` parses to 1 — but acceptance is broader than the claim states:
see the counterexample. -/
theorem parse_duration_concat (s : String) (n : Nat)
    (h : IsDurSegs s.data n) :
    (0 < n → parse_duration_to_seconds s = .ok n) ∧
    (n = 0 → parse_duration_to_seconds s =
      .error ("Invalid --schedule-in value: " ++ s)) ∧
    parse_duration_to_seconds "0m" =
      .error ("Invalid --schedule-in value: " ++ "0m") ∧
    parse_duration_to_seconds "0h0m1s" = .ok 1 := by
  have hsum : scanSum (pyStrip s.data) = n := by
    rw [segs_strip h]
    exact scanSum_of_segs h
  refine ⟨?_, ?_, rfl, rfl⟩
  · intro hpos
    unfold parse_duration_to_seconds
    rw [hsum, if_neg]
    omega
  · intro h0
    unfold parse_duration_to_seconds
    rw [hsum, if_pos]
    omega

/-- Witness for C7 at the concrete duration string `"1h30m"`. -/
theorem parse_duration_concat_witness :
    parse_duration_to_seconds "1h30m" = .ok 5400 := by
  have hsegs : IsDurSegs "1h30m".data 5400 :=
    IsDurSegs.seg ['1'] 'h' ['3', '0', 'm'] 1800 (by decide) (by decide)
      (by decide)
      (IsDurSegs.seg ['3', '0'] 'm' [] 0 (by decide) (by decide) (by decide)
        IsDurSegs.nil)
  exact (parse_duration_concat "1h30m" 5400 hsegs).1 (by decide)

end RpDur

namespace RpSsh

/-- The marker constant `MARKER_PREFIX` of `ssh_utils.py`. -/
def markerStr : String := "# rp:managed"

/-- Remainder of a line after optional leading whitespace and the literal
`Host`, when present: the common core of the two patterns
`^\s*Host\s+(.+)$` and `^\s*Host\s+`. -/
def hostTail? (l : List Char) : Option (List Char) :=
  match l.dropWhile RpDur.isSpacePy with
  | 'H' :: 'o' :: 's' :: 't' :: rest => some rest
  | _ => none

/-- Match of the stanza-boundary pattern `^\s*Host\s+` used by the inner
loop of `_parse_ssh_blocks`: after `Host` at least one whitespace
character follows. -/
def isInnerHost (l : List Char) : Bool :=
  match hostTail? l with
  | some (c :: _) => RpDur.isSpacePy c
  | _ => false

/-- Match of the stanza-opening pattern `^\s*Host\s+(.+)$` of the outer
loop: after `Host` at least one whitespace character and, past the
backtracking of `\s+` against `(.+)`, at least one further character. -/
def isOuterHost (l : List Char) : Bool :=
  match hostTail? l with
  | some (c :: cs) => RpDur.isSpacePy c && !cs.isEmpty
  | _ => false

/-- Python `str.split()` (whitespace words) with an accumulator for the
current word, reversed. -/
def splitWsAux : List Char → List Char → List (List Char)
  | [], acc => if acc.isEmpty then [] else [acc.reverse]
  | c :: cs, acc =>
    if RpDur.isSpacePy c then
      if acc.isEmpty then splitWsAux cs []
      else acc.reverse :: splitWsAux cs []
    else splitWsAux cs (c :: acc)

/-- Host tokens of a stanza-opening line: `m.group(1).strip().split()`.
Stripping the group is subsumed: leading whitespace went to `\s+` up to
backtracking, and `split()` ignores outer whitespace anyway. -/
def hostTokens (l : List Char) : List String :=
  match hostTail? l with
  | some rest => (splitWsAux rest []).map (fun w => String.mk w)
  | none => []

/-- Marker test `lines[j].lstrip().startswith(MARKER_PREFIX)`. -/
def isMarkerLine (l : List Char) : Bool :=
  markerStr.data.isPrefixOf (l.dropWhile RpDur.isSpacePy)

/-- One parsed stanza of `_parse_ssh_blocks`: the dictionary with keys
`start`, `end`, `hosts`, `managed`, `marker_index` (−1 when absent). -/
structure SshBlock where
  start : Nat
  stop : Nat
  hosts : List String
  managed : Bool
  markerIdx : Int
deriving DecidableEq

/-- Fuelled worker for `_parse_ssh_blocks`: at a stanza-opening line the
body runs until the next boundary line (`takeWhile`/`dropWhile` mirror the
inner `while`), the block records its line range, host tokens, managed
flag and first marker index, and scanning resumes at the boundary; other
lines are skipped.  The fuel only bounds the recursion; with fuel at least
the list length the loop is reproduced exactly. -/
def parseAuxF (fuel : Nat) (lines : List (List Char)) (i : Nat) :
    List SshBlock :=
  match lines, fuel with
  | [], _ => []
  | _ :: _, 0 => []
  | l :: rest, fuel + 1 =>
    if isOuterHost l then
      let body := rest.takeWhile (fun x => !isInnerHost x)
      let rest2 := rest.dropWhile (fun x => !isInnerHost x)
      { start := i, stop := i + 1 + body.length, hosts := hostTokens l,
        managed := body.any isMarkerLine,
        markerIdx :=
          match body.findIdx? isMarkerLine with
          | some j => (i : Int) + 1 + (j : Int)
          | none => -1 } :: parseAuxF fuel rest2 (i + 1 + body.length)
    else parseAuxF fuel rest (i + 1)

/-- The function `_parse_ssh_blocks` of `ssh_utils.py` / `main.py`. -/
def parseSshBlocks (lines : List (List Char)) : List SshBlock :=
  parseAuxF lines.length lines 0

/-- The rendered managed block of `update_ssh_config`, with the marker
timestamp passed explicitly. -/
def renderBlock (hostAlias podId hostname port ts : String) :
    List (List Char) :=
  [("Host " ++ hostAlias).data,
   ("    " ++ markerStr ++ " alias=" ++ hostAlias ++ " pod_id=" ++ podId ++
     " updated=" ++ ts).data,
   ("    HostName " ++ hostname).data,
   "    User root".data,
   ("    Port " ++ port).data,
   "    IdentitiesOnly yes".data,
   "    IdentityFile ~/.ssh/runpod".data]

/-- The blank-separator step of `update_ssh_config`'s append branch: add a
blank line when the file is non-empty and its last line is not blank. -/
def sepLines (lines : List (List Char)) : List (List Char) :=
  match lines.getLast? with
  | none => lines
  | some last =>
    if (RpDur.pyStrip last).isEmpty then lines else lines ++ [[]]

/-- The function `update_ssh_config` of `ssh_utils.py` / `main.py` on the
line list of the SSH config file: replace the first block listing the
alias among its host tokens, or append the new block at the end, preceded
by a blank line when the file is non-empty and its last line is not
blank. -/
def update_ssh_config (lines : List (List Char))
    (hostAlias podId hostname port ts : String) : List (List Char) :=
  let blocks := parseSshBlocks lines
  let newBlock := renderBlock hostAlias podId hostname port ts
  match blocks.find? (fun b => b.hosts.contains hostAlias) with
  | none => sepLines lines ++ newBlock
  | some blk => lines.take blk.start ++ newBlock ++ lines.drop blk.stop

/-- Range deletion shared by `remove_ssh_host_block` and
`prune_rp_managed_blocks`: keep `lines[cur:start]` for each deleted range
and the tail after the last one. -/
def deleteRangesAux (lines : List (List Char)) :
    Nat → List (Nat × Nat) → List (List Char)
  | cur, [] => lines.drop cur
  | cur, (s, e) :: rest =>
    ((lines.drop cur).take (s - cur)) ++ deleteRangesAux lines e rest

/-- Claim-side view of a file's non-managed content: the lines outside
every managed stanza. -/
def removeManaged (lines : List (List Char)) : List (List Char) :=
  deleteRangesAux lines 0
    (((parseSshBlocks lines).filter (fun b => b.managed)).map
      (fun b => (b.start, b.stop)))

/-- A well-formed alias: non-empty and free of whitespace, so that it forms
a single host token. -/
def IsToken (a : String) : Prop :=
  a.data ≠ [] ∧ ∀ c ∈ a.data, RpDur.isSpacePy c = false

end RpSsh

namespace RpList

theorem dropWhile_append_left {α : Type} (p : α → Bool) (X Y : List α)
    (h : X.dropWhile p ≠ []) :
    (X ++ Y).dropWhile p = X.dropWhile p ++ Y := by
  induction X with
  | nil => exact absurd rfl h
  | cons a X ih =>
    rw [List.cons_append, List.dropWhile_cons, List.dropWhile_cons]
    by_cases hp : p a = true
    · rw [if_pos hp, if_pos hp]
      rw [List.dropWhile_cons, if_pos hp] at h
      exact ih h
    · rw [if_neg hp, if_neg hp]
      rfl

theorem takeWhile_append_of_all {α : Type} (p : α → Bool) (X Y : List α)
    (h : ∀ x ∈ X, p x = true) :
    (X ++ Y).takeWhile p = X ++ Y.takeWhile p := by
  induction X with
  | nil => rfl
  | cons a X ih =>
    rw [List.cons_append, List.takeWhile_cons, if_pos (h a (by simp))]
    rw [ih (fun x hx => h x (List.mem_cons_of_mem a hx))]
    rfl

theorem dropWhile_append_of_all {α : Type} (p : α → Bool) (X Y : List α)
    (h : ∀ x ∈ X, p x = true) :
    (X ++ Y).dropWhile p = Y.dropWhile p := by
  induction X with
  | nil => rfl
  | cons a X ih =>
    rw [List.cons_append, List.dropWhile_cons, if_pos (h a (by simp))]
    exact ih (fun x hx => h x (List.mem_cons_of_mem a hx))

theorem takeWhile_append_of_not_all {α : Type} (p : α → Bool) (X Y : List α)
    (h : X.dropWhile p ≠ []) :
    (X ++ Y).takeWhile p = X.takeWhile p := by
  induction X with
  | nil => exact absurd rfl h
  | cons a X ih =>
    rw [List.cons_append, List.takeWhile_cons, List.takeWhile_cons]
    by_cases hp : p a = true
    · rw [if_pos hp, if_pos hp]
      rw [List.dropWhile_cons, if_pos hp] at h
      rw [ih h]
    · rw [if_neg hp, if_neg hp]

end RpList

namespace RpSsh

theorem string_mk_data (a : String) : String.mk a.data = a := rfl

theorem hostTail_render_head (a : String) :
    hostTail? (("Host " ++ a).data) = some (' ' :: a.data) := by
  have h1 : ("Host " ++ a).data.dropWhile RpDur.isSpacePy =
      'H' :: 'o' :: 's' :: 't' :: ' ' :: a.data := by
    rw [String.data_append]
    rw [RpList.dropWhile_append_left _ _ _ (by decide)]
    rfl
  unfold hostTail?
  rw [h1]
  rfl

theorem isOuter_render_head (a : String) (ha : IsToken a) :
    isOuterHost (("Host " ++ a).data) = true := by
  unfold isOuterHost
  rw [hostTail_render_head]
  show (RpDur.isSpacePy ' ' && !a.data.isEmpty) = true
  have h2 : a.data.isEmpty = false := by
    rcases h : a.data with _ | ⟨c, cs⟩
    · exact absurd h ha.1
    · rfl
  rw [h2]
  decide

theorem isInner_render_head (a : String) :
    isInnerHost (("Host " ++ a).data) = true := by
  unfold isInnerHost
  rw [hostTail_render_head]
  show RpDur.isSpacePy ' ' = true
  decide

theorem splitWsAux_token (w : List Char) (acc : List Char) (hne : w ≠ [])
    (hw : ∀ c ∈ w, RpDur.isSpacePy c = false) :
    splitWsAux w acc = [acc.reverse ++ w] := by
  induction w generalizing acc with
  | nil => exact absurd rfl hne
  | cons c w ih =>
    have hc : RpDur.isSpacePy c = false := hw c (by simp)
    show splitWsAux (c :: w) acc = _
    unfold splitWsAux
    rw [hc]
    simp only [Bool.false_eq_true, if_false]
    rcases w with _ | ⟨d, w'⟩
    · show splitWsAux [] (c :: acc) = _
      unfold splitWsAux
      simp
    · rw [ih (c :: acc) (by simp) (fun x hx => hw x (List.mem_cons_of_mem c hx))]
      simp

theorem hostTokens_render_head (a : String) (ha : IsToken a) :
    hostTokens (("Host " ++ a).data) = [a] := by
  unfold hostTokens
  rw [hostTail_render_head]
  show (splitWsAux (' ' :: a.data) []).map (fun w => String.mk w) = [a]
  unfold splitWsAux
  rw [show RpDur.isSpacePy ' ' = true from rfl]
  simp only [if_pos, List.isEmpty_nil]
  rw [splitWsAux_token a.data [] ha.1 ha.2]
  simp [string_mk_data]

theorem isInner_hostname_line (h : String) :
    isInnerHost (("    HostName " ++ h).data) = false := by
  unfold isInnerHost hostTail?
  rw [String.data_append]
  rw [RpList.dropWhile_append_left _ _ _ (by decide)]
  rfl

theorem isInner_port_line (port : String) :
    isInnerHost (("    Port " ++ port).data) = false := by
  unfold isInnerHost hostTail?
  rw [String.data_append]
  rw [RpList.dropWhile_append_left _ _ _ (by decide)]
  rfl

theorem marker_line_data (a p ts : String) :
    ("    " ++ markerStr ++ " alias=" ++ a ++ " pod_id=" ++ p ++
      " updated=" ++ ts).data =
      "    # rp:managed alias=".data ++
        (a.data ++ (" pod_id=".data ++ (p.data ++ (" updated=".data ++
          ts.data)))) := by
  simp [markerStr, String.data_append, List.append_assoc]

theorem isInner_marker_line (a p ts : String) :
    isInnerHost (("    " ++ markerStr ++ " alias=" ++ a ++ " pod_id=" ++ p ++
      " updated=" ++ ts).data) = false := by
  unfold isInnerHost hostTail?
  rw [marker_line_data]
  rw [RpList.dropWhile_append_left _ _ _ (by decide)]
  rfl

theorem isMarker_marker_line (a p ts : String) :
    isMarkerLine (("    " ++ markerStr ++ " alias=" ++ a ++ " pod_id=" ++ p ++
      " updated=" ++ ts).data) = true := by
  unfold isMarkerLine
  rw [marker_line_data]
  rw [RpList.dropWhile_append_left _ _ _ (by decide)]
  rw [List.isPrefixOf_iff_prefix]
  have h1 : markerStr.data <+:
      "    # rp:managed alias=".data.dropWhile RpDur.isSpacePy := by decide
  exact h1.trans (List.prefix_append _ _)

theorem renderBlock_body_not_inner (a p h port ts : String) :
    ∀ x ∈ (renderBlock a p h port ts).tail, isInnerHost x = false := by
  intro x hx
  unfold renderBlock at hx
  simp only [List.tail_cons, List.mem_cons, List.not_mem_nil, or_false] at hx
  rcases hx with hx | hx | hx | hx | hx | hx <;> subst hx
  · exact isInner_marker_line a p ts
  · exact isInner_hostname_line h
  · decide
  · exact isInner_port_line port
  · decide
  · decide

theorem renderBlock_parse (a p h port ts : String) (ha : IsToken a)
    (fuel : Nat) (i : Nat) :
    parseAuxF (fuel + 7) (renderBlock a p h port ts) i =
      [{ start := i, stop := i + 7, hosts := [a], managed := true,
         markerIdx := (i : Int) + 1 }] := by
  have hbody : (renderBlock a p h port ts).tail.takeWhile
      (fun x => !isInnerHost x) = (renderBlock a p h port ts).tail := by
    rw [List.takeWhile_eq_self_iff]
    intro x hx
    rw [renderBlock_body_not_inner a p h port ts x hx]
    rfl
  have hrest : (renderBlock a p h port ts).tail.dropWhile
      (fun x => !isInnerHost x) = [] := by
    have := List.takeWhile_append_dropWhile
      (fun x => !isInnerHost x) (renderBlock a p h port ts).tail
    rw [hbody] at this
    have hlen := congrArg List.length this
    rw [List.length_append] at hlen
    rcases hd : (renderBlock a p h port ts).tail.dropWhile
        (fun x => !isInnerHost x) with _ | ⟨y, ys⟩
    · rfl
    · rw [hd] at hlen
      simp at hlen
  show parseAuxF (fuel + 7) (("Host " ++ a).data ::
    (renderBlock a p h port ts).tail) i = _
  unfold parseAuxF
  rw [isOuter_render_head a ha]
  simp only [if_pos]
  rw [hbody, hrest]
  have hlen : (renderBlock a p h port ts).tail.length = 6 := rfl
  rw [hlen, hostTokens_render_head a ha]
  have hany : (renderBlock a p h port ts).tail.any isMarkerLine = true := by
    have : isMarkerLine (("    " ++ markerStr ++ " alias=" ++ a ++
        " pod_id=" ++ p ++ " updated=" ++ ts).data) = true :=
      isMarker_marker_line a p ts
    unfold renderBlock
    simp only [List.tail_cons, List.any_cons]
    rw [this]
    rfl
  have hidx : (renderBlock a p h port ts).tail.findIdx? isMarkerLine =
      some 0 := by
    unfold renderBlock
    simp only [List.tail_cons]
    rw [List.findIdx?_cons, isMarker_marker_line a p ts]
    rfl
  rw [hany, hidx]
  have hnil : parseAuxF (fuel + 6) ([] : List (List Char)) (i + 1 + 6) = [] :=
    rfl
  rw [hnil]
  norm_num

end RpSsh

namespace RpList

theorem dropWhile_head_false {α : Type} (p : α → Bool) (l : List α) (y : α)
    (ys : List α) (h : l.dropWhile p = y :: ys) : p y = false := by
  induction l with
  | nil => simp at h
  | cons a l ih =>
    rw [List.dropWhile_cons] at h
    by_cases hp : p a = true
    · rw [if_pos hp] at h
      exact ih h
    · rw [if_neg hp] at h
      cases h
      simpa using hp

end RpList

namespace RpSsh

theorem parseAuxF_nil (f : Nat) (i : Nat) :
    parseAuxF f [] i = [] := by
  cases f <;> rfl

theorem parseAuxF_cons (f : Nat) (x : List Char) (rest : List (List Char))
    (i : Nat) :
    parseAuxF (f + 1) (x :: rest) i =
      if isOuterHost x then
        { start := i,
          stop := i + 1 + (rest.takeWhile (fun y => !isInnerHost y)).length,
          hosts := hostTokens x,
          managed := (rest.takeWhile (fun y => !isInnerHost y)).any
            isMarkerLine,
          markerIdx :=
            match (rest.takeWhile (fun y => !isInnerHost y)).findIdx?
                isMarkerLine with
            | some j => (i : Int) + 1 + (j : Int)
            | none => -1 } ::
          parseAuxF f (rest.dropWhile (fun y => !isInnerHost y))
            (i + 1 + (rest.takeWhile (fun y => !isInnerHost y)).length)
      else parseAuxF f rest (i + 1) := rfl

theorem parseAuxF_fuel_irrel (f : Nat) :
    ∀ (g : Nat) (l : List (List Char)) (i : Nat),
      l.length ≤ f → l.length ≤ g → parseAuxF f l i = parseAuxF g l i := by
  induction f with
  | zero =>
    intro g l i hf _
    rcases l with _ | ⟨x, rest⟩
    · rw [parseAuxF_nil, parseAuxF_nil]
    · simp at hf
  | succ f ih =>
    intro g l i hf hg
    rcases l with _ | ⟨x, rest⟩
    · rw [parseAuxF_nil, parseAuxF_nil]
    · rcases g with _ | g
      · simp at hg
      · rw [parseAuxF_cons, parseAuxF_cons]
        by_cases hx : isOuterHost x = true
        · rw [if_pos hx, if_pos hx]
          congr 1
          apply ih
          · calc (rest.dropWhile (fun y => !isInnerHost y)).length
                ≤ rest.length := RpList.length_dropWhile_le _ _
              _ ≤ f := by simp at hf; omega
          · calc (rest.dropWhile (fun y => !isInnerHost y)).length
                ≤ rest.length := RpList.length_dropWhile_le _ _
              _ ≤ g := by simp at hg; omega
        · rw [if_neg hx, if_neg hx]
          apply ih
          · simp at hf; omega
          · simp at hg; omega

/-- Shift of a block by an index offset. -/
def blockShift (k : Nat) (b : SshBlock) : SshBlock :=
  { b with
    start := b.start + k
    stop := b.stop + k
    markerIdx := if b.markerIdx = -1 then -1 else b.markerIdx + k }

theorem parseAuxF_shift (f : Nat) :
    ∀ (l : List (List Char)) (i k : Nat),
      parseAuxF f l (k + i) = (parseAuxF f l i).map (blockShift k) := by
  induction f with
  | zero =>
    intro l i k
    rcases l with _ | ⟨x, rest⟩
    · rw [parseAuxF_nil, parseAuxF_nil]
      rfl
    · rfl
  | succ f ih =>
    intro l i k
    rcases l with _ | ⟨x, rest⟩
    · rw [parseAuxF_nil, parseAuxF_nil]
      rfl
    · rw [parseAuxF_cons, parseAuxF_cons]
      by_cases hx : isOuterHost x = true
      · rw [if_pos hx, if_pos hx, List.map_cons]
        congr 1
        · rcases hidx : (rest.takeWhile (fun y => !isInnerHost y)).findIdx?
              isMarkerLine with _ | j
          · simp only [hidx, blockShift, SshBlock.mk.injEq]
            refine ⟨by omega, by omega, trivial, trivial, by simp⟩
          · simp only [hidx, blockShift, SshBlock.mk.injEq]
            have hne : ¬((i : Int) + 1 + (j : Int) = -1) := by omega
            refine ⟨by omega, by omega, trivial, trivial, ?_⟩
            rw [if_neg hne]
            push_cast
            omega
        · have e1 : k + i + 1 +
              (rest.takeWhile (fun y => !isInnerHost y)).length =
              k + (i + 1 + (rest.takeWhile (fun y => !isInnerHost y)).length) := by
            omega
          rw [e1]
          exact ih _ _ k
      · rw [if_neg hx, if_neg hx]
        have e1 : k + i + 1 = k + (i + 1) := by omega
        rw [e1]
        exact ih rest (i + 1) k

end RpSsh

namespace RpSsh

/-- A boundary-or-empty suffix: the shapes at which a stanza body can
end. -/
def HeadBoundary (C : List (List Char)) : Prop :=
  C = [] ∨ ∃ y ys, C = y :: ys ∧ isInnerHost y = true

theorem headBoundary_takeWhile_nil {C : List (List Char)}
    (hC : HeadBoundary C) :
    C.takeWhile (fun y => !isInnerHost y) = [] := by
  rcases hC with h | ⟨y, ys, h, hy⟩
  · subst h; rfl
  · subst h
    rw [List.takeWhile_cons, if_neg]
    rw [hy]
    simp

theorem headBoundary_dropWhile_self {C : List (List Char)}
    (hC : HeadBoundary C) :
    C.dropWhile (fun y => !isInnerHost y) = C := by
  rcases hC with h | ⟨y, ys, h, hy⟩
  · subst h; rfl
  · subst h
    rw [List.dropWhile_cons, if_neg]
    rw [hy]
    simp

/-- Parsing distributes over a split of the file at a boundary line: the
blocks of `A ++ C` are those of `A` followed by those of `C` at the
shifted offset. -/
theorem parseAuxF_append (f : Nat) :
    ∀ (A C : List (List Char)) (i : Nat), A.length + C.length ≤ f →
      HeadBoundary C →
      parseAuxF f (A ++ C) i =
        parseAuxF f A i ++ parseAuxF f C (i + A.length) := by
  induction f with
  | zero =>
    intro A C i hf hC
    have hA : A = [] := by
      rcases A with _ | ⟨x, r⟩
      · rfl
      · simp at hf
    have hCn : C = [] := by
      rcases C with _ | ⟨x, r⟩
      · rfl
      · simp at hf
    subst hA; subst hCn
    rfl
  | succ f ih =>
    intro A C i hf hC
    rcases A with _ | ⟨x, A'⟩
    · simp only [List.nil_append, parseAuxF_nil, List.length_nil,
        Nat.add_zero]
    · have hfC : C.length ≤ f := by
        simp only [List.length_cons] at hf
        omega
      rw [List.cons_append, parseAuxF_cons, parseAuxF_cons]
      by_cases hx : isOuterHost x = true
      · rw [if_pos hx, if_pos hx]
        by_cases hAin : A'.dropWhile (fun y => !isInnerHost y) = []
        · have hall : ∀ y ∈ A', (fun y => !isInnerHost y) y = true := by
            intro y hy
            by_contra hcon
            have hne : A'.dropWhile (fun y => !isInnerHost y) ≠ [] := by
              intro hnil
              have h3 := List.takeWhile_append_dropWhile
                (fun y => !isInnerHost y) A'
              rw [hnil, List.append_nil] at h3
              rw [← h3] at hy
              have h4 := List.mem_takeWhile_imp hy
              exact hcon h4
            exact hne hAin
          have htake : (A' ++ C).takeWhile (fun y => !isInnerHost y) = A' := by
            rw [RpList.takeWhile_append_of_all _ _ _ hall,
              headBoundary_takeWhile_nil hC, List.append_nil]
          have hdrop : (A' ++ C).dropWhile (fun y => !isInnerHost y) = C := by
            rw [RpList.dropWhile_append_of_all _ _ _ hall,
              headBoundary_dropWhile_self hC]
          have htakeA : A'.takeWhile (fun y => !isInnerHost y) = A' :=
            List.takeWhile_eq_self_iff.mpr hall
          rw [htake, hdrop, htakeA, hAin, parseAuxF_nil]
          rw [parseAuxF_fuel_irrel f (f + 1) C (i + 1 + A'.length) hfC
            (by omega)]
          have e : i + 1 + A'.length = i + (x :: A').length := by
            simp only [List.length_cons]
            omega
          rw [e]
          simp
        · have htake : (A' ++ C).takeWhile (fun y => !isInnerHost y) =
              A'.takeWhile (fun y => !isInnerHost y) :=
            RpList.takeWhile_append_of_not_all _ _ _ hAin
          have hdrop : (A' ++ C).dropWhile (fun y => !isInnerHost y) =
              A'.dropWhile (fun y => !isInnerHost y) ++ C :=
            RpList.dropWhile_append_left _ _ _ hAin
          rw [htake, hdrop]
          have hlen : (A'.dropWhile (fun y => !isInnerHost y)).length +
              C.length ≤ f := by
            have h1 : (A'.dropWhile (fun y => !isInnerHost y)).length ≤
                A'.length := RpList.length_dropWhile_le _ _
            simp only [List.length_cons] at hf
            omega
          rw [ih _ C _ hlen hC]
          have hlensum : (A'.takeWhile (fun y => !isInnerHost y)).length +
              (A'.dropWhile (fun y => !isInnerHost y)).length = A'.length := by
            have h2 := congrArg List.length
              (List.takeWhile_append_dropWhile (fun y => !isInnerHost y) A')
            rw [List.length_append] at h2
            exact h2
          have e : i + 1 + (A'.takeWhile (fun y => !isInnerHost y)).length +
              (A'.dropWhile (fun y => !isInnerHost y)).length =
              i + (x :: A').length := by
            simp only [List.length_cons]
            omega
          rw [e]
          rw [parseAuxF_fuel_irrel f (f + 1) C (i + (x :: A').length) hfC
            (by omega)]
          simp
      · rw [if_neg hx, if_neg hx]
        have hlen : A'.length + C.length ≤ f := by
          simp only [List.length_cons] at hf
          omega
        rw [ih A' C (i + 1) hlen hC]
        have e : i + 1 + A'.length = i + (x :: A').length := by
          simp only [List.length_cons]
          omega
        rw [e]
        rw [parseAuxF_fuel_irrel f (f + 1) C (i + (x :: A').length) hfC
          (by omega)]

end RpSsh

namespace RpSsh

/-- Every parsed block corresponds to a decomposition of the file into a
prefix, an opening `Host` line, a boundary-free body and a suffix starting
at a boundary (or empty); its fields are computed from these pieces. -/
theorem parseAuxF_mem_dec (f : Nat) :
    ∀ (l : List (List Char)) (i : Nat) (b : SshBlock),
      b ∈ parseAuxF f l i →
      ∃ A g body C, l = A ++ g :: (body ++ C) ∧ b.start = i + A.length ∧
        b.stop = i + A.length + 1 + body.length ∧ isOuterHost g = true ∧
        (∀ x ∈ body, isInnerHost x = false) ∧ HeadBoundary C ∧
        b.hosts = hostTokens g ∧ b.managed = body.any isMarkerLine := by
  induction f with
  | zero =>
    intro l i b hb
    rcases l with _ | ⟨x, rest⟩
    · rw [parseAuxF_nil] at hb
      simp at hb
    · simp only [parseAuxF] at hb
      simp at hb
  | succ f ih =>
    intro l i b hb
    rcases l with _ | ⟨x, rest⟩
    · rw [parseAuxF_nil] at hb
      simp at hb
    · rw [parseAuxF_cons] at hb
      by_cases hx : isOuterHost x = true
      · rw [if_pos hx] at hb
        rcases List.mem_cons.mp hb with hb1 | hb2
        · refine ⟨[], x, rest.takeWhile (fun y => !isInnerHost y),
            rest.dropWhile (fun y => !isInnerHost y), ?_, ?_, ?_, hx, ?_, ?_,
            ?_, ?_⟩
          · rw [List.nil_append, List.takeWhile_append_dropWhile]
          · rw [hb1]
            simp
          · rw [hb1]
            simp
          · intro y hy
            have h4 := List.mem_takeWhile_imp hy
            simp only [Bool.not_eq_eq_eq_not, Bool.not_true] at h4
            exact h4
          · unfold HeadBoundary
            rcases hd : rest.dropWhile (fun y => !isInnerHost y) with
              _ | ⟨y, ys⟩
            · exact Or.inl rfl
            · right
              refine ⟨y, ys, rfl, ?_⟩
              have h5 := RpList.dropWhile_head_false _ _ _ _ hd
              simp only [Bool.not_eq_eq_eq_not, Bool.not_true] at h5
              exact h5
          · rw [hb1]
          · rw [hb1]
        · have hrec := ih _ _ _ hb2
          rcases hrec with ⟨A', g, body, C, hsplit, hstart, hstop, hg, hbody,
            hC, hhosts, hmg⟩
          refine ⟨x :: (rest.takeWhile (fun y => !isInnerHost y) ++ A'), g,
            body, C, ?_, ?_, ?_, hg, hbody, hC, hhosts, hmg⟩
          · rw [List.cons_append]
            congr 1
            rw [List.append_assoc, ← hsplit,
              List.takeWhile_append_dropWhile]
          · rw [hstart]
            simp only [List.length_cons, List.length_append]
            omega
          · rw [hstop]
            simp only [List.length_cons, List.length_append]
            omega
      · rw [if_neg hx] at hb
        have hrec := ih _ _ _ hb
        rcases hrec with ⟨A', g, body, C, hsplit, hstart, hstop, hg, hbody,
          hC, hhosts, hmg⟩
        refine ⟨x :: A', g, body, C, ?_, ?_, ?_, hg, hbody, hC, hhosts, hmg⟩
        · rw [List.cons_append, hsplit]
        · rw [hstart]
          simp only [List.length_cons]
          omega
        · rw [hstop]
          simp only [List.length_cons]
          omega

/-- Index bounds for parsed blocks. -/
theorem parseAuxF_bound (f : Nat) (l : List (List Char)) (i : Nat)
    (b : SshBlock) (hb : b ∈ parseAuxF f l i) :
    i ≤ b.start ∧ b.start < b.stop ∧ b.stop ≤ i + l.length := by
  rcases parseAuxF_mem_dec f l i b hb with ⟨A, g, body, C, hsplit, hstart,
    hstop, _, _, _, _, _⟩
  have hlen : l.length = A.length + 1 + body.length + C.length := by
    rw [hsplit]
    simp only [List.length_append, List.length_cons]
    omega
  omega

/-- Every parsed block takes its host tokens from an opening line of the
file. -/
theorem parseAuxF_hosts_from_line (f : Nat) (l : List (List Char)) (i : Nat)
    (b : SshBlock) (hb : b ∈ parseAuxF f l i) :
    ∃ g ∈ l, isOuterHost g = true ∧ b.hosts = hostTokens g := by
  rcases parseAuxF_mem_dec f l i b hb with ⟨A, g, body, C, hsplit, _, _, hg,
    _, _, hhosts, _⟩
  exact ⟨g, by rw [hsplit]; simp, hg, hhosts⟩

end RpSsh

namespace RpSsh

theorem isInner_blank : isInnerHost ([] : List Char) = false := rfl

theorem isOuter_blank : isOuterHost ([] : List Char) = false := rfl

theorem isMarker_blank : isMarkerLine ([] : List Char) = false := by decide

/-- Appending the blank separator line leaves the parsed blocks unchanged,
except that a final block reaching the end of the file absorbs the blank
into its range. -/
theorem parseAuxF_append_blank (f : Nat) :
    ∀ (F : List (List Char)) (i : Nat), F.length + 1 ≤ f →
      parseAuxF f (F ++ [[]]) i = parseAuxF f F i ∨
      ∃ G b, parseAuxF f F i = G ++ [b] ∧
        parseAuxF f (F ++ [[]]) i = G ++ [{ b with stop := b.stop + 1 }] ∧
        b.stop = i + F.length := by
  induction f with
  | zero =>
    intro F i hf
    simp at hf
  | succ f ih =>
    intro F i hf
    rcases F with _ | ⟨x, rest⟩
    · left
      show parseAuxF (f + 1) ([] :: []) i = _
      rw [parseAuxF_cons, if_neg (by rw [isOuter_blank]; simp),
        parseAuxF_nil, parseAuxF_nil]
    · rw [List.cons_append, parseAuxF_cons, parseAuxF_cons]
      by_cases hx : isOuterHost x = true
      · rw [if_pos hx, if_pos hx]
        by_cases hAin : rest.dropWhile (fun y => !isInnerHost y) = []
        · -- the body of x reaches the end of the file
          have hall : ∀ y ∈ rest, (fun y => !isInnerHost y) y = true := by
            intro y hy
            by_contra hcon
            have hne : rest.dropWhile (fun y => !isInnerHost y) ≠ [] := by
              intro hnil
              have h3 := List.takeWhile_append_dropWhile
                (fun y => !isInnerHost y) rest
              rw [hnil, List.append_nil] at h3
              rw [← h3] at hy
              have h4 := List.mem_takeWhile_imp hy
              exact hcon h4
            exact hne hAin
          have htakeA : rest.takeWhile (fun y => !isInnerHost y) = rest :=
            List.takeWhile_eq_self_iff.mpr hall
          have htake : (rest ++ [[]]).takeWhile (fun y => !isInnerHost y) =
              rest ++ [[]] := by
            rw [RpList.takeWhile_append_of_all _ _ _ hall]
            congr 1
          have hdrop : (rest ++ [[]]).dropWhile (fun y => !isInnerHost y) =
              [] := by
            rw [RpList.dropWhile_append_of_all _ _ _ hall]
            rfl
          right
          refine ⟨[],
            { start := i,
              stop := i + 1 +
                (rest.takeWhile (fun y => !isInnerHost y)).length,
              hosts := hostTokens x,
              managed := (rest.takeWhile (fun y => !isInnerHost y)).any
                isMarkerLine,
              markerIdx :=
                match (rest.takeWhile (fun y => !isInnerHost y)).findIdx?
                    isMarkerLine with
                | some j => (i : Int) + 1 + (j : Int)
                | none => -1 }, ?_, ?_, ?_⟩
          · rw [hAin, parseAuxF_nil]
            simp
          · rw [hdrop, parseAuxF_nil]
            rw [List.nil_append]
            congr 1
            simp only [SshBlock.mk.injEq, htake, htakeA]
            refine ⟨trivial, ?_, trivial, ?_, ?_⟩
            · simp only [List.length_append, List.length_cons,
                List.length_nil]
              omega
            · rw [List.any_append]
              simp [isMarker_blank]
            · rw [List.findIdx?_append]
              have h5 : List.findIdx? isMarkerLine [([] : List Char)] =
                  none := by
                simp [List.findIdx?_cons, isMarker_blank]
              rw [h5]
              simp
          · simp only [htakeA, List.length_cons]
            omega
        · -- a boundary line exists inside the tail
          have htake : (rest ++ [[]]).takeWhile (fun y => !isInnerHost y) =
              rest.takeWhile (fun y => !isInnerHost y) :=
            RpList.takeWhile_append_of_not_all _ _ _ hAin
          have hdrop : (rest ++ [[]]).dropWhile (fun y => !isInnerHost y) =
              rest.dropWhile (fun y => !isInnerHost y) ++ [[]] :=
            RpList.dropWhile_append_left _ _ _ hAin
          rw [htake, hdrop]
          have hlen2 : (rest.dropWhile (fun y => !isInnerHost y)).length + 1 ≤
              f := by
            have h1 : (rest.dropWhile (fun y => !isInnerHost y)).length ≤
                rest.length := RpList.length_dropWhile_le _ _
            simp only [List.length_cons] at hf
            omega
          rcases ih (rest.dropWhile (fun y => !isInnerHost y))
              (i + 1 + (rest.takeWhile (fun y => !isInnerHost y)).length)
              hlen2 with h1 | ⟨G, b, h1, h2, h3⟩
          · left
            rw [h1]
          · right
            refine ⟨(
              { start := i,
                stop := i + 1 +
                  (rest.takeWhile (fun y => !isInnerHost y)).length,
                hosts := hostTokens x,
                managed := (rest.takeWhile (fun y => !isInnerHost y)).any
                  isMarkerLine,
                markerIdx :=
                  match (rest.takeWhile (fun y => !isInnerHost y)).findIdx?
                      isMarkerLine with
                  | some j => (i : Int) + 1 + (j : Int)
                  | none => -1 } : SshBlock) :: G, b, ?_, ?_, ?_⟩
            · rw [h1, List.cons_append]
            · rw [h2, List.cons_append]
            · have hsum : (rest.takeWhile (fun y => !isInnerHost y)).length +
                  (rest.dropWhile (fun y => !isInnerHost y)).length =
                  rest.length := by
                have h4 := congrArg List.length
                  (List.takeWhile_append_dropWhile
                    (fun y => !isInnerHost y) rest)
                rw [List.length_append] at h4
                exact h4
              simp only [List.length_cons]
              omega
      · rw [if_neg hx, if_neg hx]
        have hlen2 : rest.length + 1 ≤ f := by
          simp only [List.length_cons] at hf
          omega
        rcases ih rest (i + 1) hlen2 with h1 | ⟨G, b, h1, h2, h3⟩
        · left
          exact h1
        · right
          refine ⟨G, b, h1, h2, ?_⟩
          simp only [List.length_cons]
          omega

end RpSsh

namespace RpList

theorem drop_append_of_le {α : Type} (A B : List α) (cur : Nat)
    (h : cur ≤ A.length) : (A ++ B).drop cur = A.drop cur ++ B := by
  induction A generalizing cur with
  | nil =>
    have : cur = 0 := by simpa using h
    subst this
    rfl
  | cons a A ih =>
    rcases cur with _ | cur
    · rfl
    · simp only [List.cons_append, List.drop_succ_cons]
      exact ih cur (by simpa using h)

end RpList

namespace RpSsh

theorem deleteRangesAux_append_right (B : List (List Char)) :
    ∀ (A : List (List Char)) (rs : List (Nat × Nat)) (cur : Nat),
      cur ≤ A.length → (∀ r ∈ rs, r.1 ≤ A.length ∧ r.2 ≤ A.length) →
      deleteRangesAux (A ++ B) cur rs = deleteRangesAux A cur rs ++ B := by
  intro A rs
  induction rs with
  | nil =>
    intro cur hcur _
    show (A ++ B).drop cur = A.drop cur ++ B
    exact RpList.drop_append_of_le A B cur hcur
  | cons r rest ih =>
    intro cur hcur hrs
    rcases r with ⟨s, e⟩
    show ((A ++ B).drop cur).take (s - cur) ++
        deleteRangesAux (A ++ B) e rest = _
    have hs : s ≤ A.length := (hrs (s, e) (by simp)).1
    have he : e ≤ A.length := (hrs (s, e) (by simp)).2
    rw [RpList.drop_append_of_le A B cur hcur]
    rw [List.take_append_of_le_length (by
      simp only [List.length_drop]
      omega)]
    rw [ih e he (fun r hr => hrs r (List.mem_cons_of_mem _ hr))]
    show (A.drop cur).take (s - cur) ++
        (deleteRangesAux A e rest ++ B) = _
    rw [← List.append_assoc]
    rfl

theorem deleteRangesAux_last_range (B : List (List Char)) :
    ∀ (A : List (List Char)) (rs : List (Nat × Nat)) (cur s : Nat),
      cur ≤ A.length → s ≤ A.length →
      (∀ r ∈ rs, r.1 ≤ A.length ∧ r.2 ≤ A.length) →
      deleteRangesAux (A ++ B) cur (rs ++ [(s, A.length + B.length)]) =
        deleteRangesAux A cur (rs ++ [(s, A.length)]) := by
  intro A rs
  induction rs with
  | nil =>
    intro cur s hcur hs _
    show ((A ++ B).drop cur).take (s - cur) ++
        deleteRangesAux (A ++ B) (A.length + B.length) [] = _
    have h1 : deleteRangesAux (A ++ B) (A.length + B.length) [] = [] := by
      show (A ++ B).drop (A.length + B.length) = []
      apply List.drop_eq_nil_of_le
      simp
    have h2 : deleteRangesAux A A.length ([] : List (Nat × Nat)) = [] := by
      show A.drop A.length = []
      apply List.drop_eq_nil_of_le
      omega
    rw [h1]
    show _ = (A.drop cur).take (s - cur) ++ deleteRangesAux A A.length []
    rw [h2]
    rw [RpList.drop_append_of_le A B cur hcur]
    rw [List.take_append_of_le_length (by
      simp only [List.length_drop]
      omega)]
  | cons r rest ih =>
    intro cur s hcur hs hrs
    rcases r with ⟨s0, e0⟩
    show ((A ++ B).drop cur).take (s0 - cur) ++
        deleteRangesAux (A ++ B) e0 (rest ++ [(s, A.length + B.length)]) = _
    have hs0 : s0 ≤ A.length := (hrs (s0, e0) (by simp)).1
    have he0 : e0 ≤ A.length := (hrs (s0, e0) (by simp)).2
    rw [RpList.drop_append_of_le A B cur hcur]
    rw [List.take_append_of_le_length (by
      simp only [List.length_drop]
      omega)]
    rw [ih e0 s he0 hs (fun r hr => hrs r (List.mem_cons_of_mem _ hr))]
    rfl

theorem deleteRangesAux_shift (M C : List (List Char)) :
    ∀ (rs : List (Nat × Nat)) (cur : Nat),
      deleteRangesAux (M ++ C) (M.length + cur)
        (rs.map (fun r => (r.1 + M.length, r.2 + M.length))) =
      deleteRangesAux C cur rs := by
  intro rs
  induction rs with
  | nil =>
    intro cur
    show (M ++ C).drop (M.length + cur) = C.drop cur
    exact List.drop_append cur
  | cons r rest ih =>
    intro cur
    rcases r with ⟨s, e⟩
    show ((M ++ C).drop (M.length + cur)).take ((s + M.length) -
        (M.length + cur)) ++
      deleteRangesAux (M ++ C) (e + M.length)
        (rest.map (fun r => (r.1 + M.length, r.2 + M.length))) = _
    rw [List.drop_append]
    have e1 : (s + M.length) - (M.length + cur) = s - cur := by omega
    rw [e1]
    have e2 : e + M.length = M.length + e := by omega
    rw [e2, ih e]
    rfl

theorem deleteRangesAux_concat (A rest : List (List Char))
    (ras rcs : List (Nat × Nat)) :
    ∀ (cur : Nat), cur ≤ A.length →
      (∀ r ∈ ras, r.1 ≤ A.length ∧ r.2 ≤ A.length) →
      deleteRangesAux (A ++ rest) cur
          (ras ++ rcs.map (fun r => (r.1 + A.length, r.2 + A.length))) =
        deleteRangesAux A cur ras ++ deleteRangesAux rest 0 rcs := by
  induction ras with
  | nil =>
    intro cur hcur _
    rcases rcs with _ | ⟨⟨s, e⟩, rcs'⟩
    · show (A ++ rest).drop cur = A.drop cur ++ rest.drop 0
      rw [RpList.drop_append_of_le A rest cur hcur]
      rfl
    · show ((A ++ rest).drop cur).take ((s + A.length) - cur) ++
        deleteRangesAux (A ++ rest) (e + A.length)
          (rcs'.map (fun r => (r.1 + A.length, r.2 + A.length))) = _
      rw [RpList.drop_append_of_le A rest cur hcur]
      have e1 : (s + A.length) - cur = (A.drop cur).length + s := by
        simp only [List.length_drop]
        omega
      rw [e1, List.take_append]
      have e2 : e + A.length = A.length + e := by omega
      rw [e2, deleteRangesAux_shift A rest rcs' e]
      rw [List.append_assoc]
      rfl
  | cons r ras' ih =>
    intro cur hcur hras
    rcases r with ⟨s0, e0⟩
    show ((A ++ rest).drop cur).take (s0 - cur) ++
        deleteRangesAux (A ++ rest) e0
          (ras' ++ rcs.map (fun r => (r.1 + A.length, r.2 + A.length))) = _
    have hs0 : s0 ≤ A.length := (hras (s0, e0) (by simp)).1
    have he0 : e0 ≤ A.length := (hras (s0, e0) (by simp)).2
    rw [RpList.drop_append_of_le A rest cur hcur]
    rw [List.take_append_of_le_length (by
      simp only [List.length_drop]
      omega)]
    rw [ih e0 he0 (fun r hr => hras r (List.mem_cons_of_mem _ hr))]
    rw [← List.append_assoc]
    rfl

end RpSsh

namespace RpSsh

theorem outer_imp_inner {l : List Char} (h : isOuterHost l = true) :
    isInnerHost l = true := by
  unfold isOuterHost at h
  unfold isInnerHost
  rcases ht : hostTail? l with _ | rest
  · rw [ht] at h
    simp at h
  · rw [ht] at h
    rcases rest with _ | ⟨c, cs⟩
    · simp at h
    · simp only [Bool.and_eq_true] at h
      exact h.1

/-- Parsing a file decomposed at a stanza: the prefix parses on its own,
the stanza yields one block, and the suffix parses at the shifted
offset. -/
theorem parse_decomp (f : Nat) (A : List (List Char)) (g : List Char)
    (body C : List (List Char))
    (hf : (A ++ g :: (body ++ C)).length ≤ f)
    (hg : isOuterHost g = true)
    (hbody : ∀ x ∈ body, isInnerHost x = false)
    (hC : HeadBoundary C) :
    parseAuxF f (A ++ g :: (body ++ C)) 0 =
      parseAuxF f A 0 ++
        ({ start := A.length, stop := A.length + 1 + body.length,
           hosts := hostTokens g, managed := body.any isMarkerLine,
           markerIdx :=
             match body.findIdx? isMarkerLine with
             | some j => (A.length : Int) + 1 + (j : Int)
             | none => -1 } ::
          parseAuxF f C (A.length + 1 + body.length)) := by
  have hCb : HeadBoundary (g :: (body ++ C)) :=
    Or.inr ⟨g, body ++ C, rfl, outer_imp_inner hg⟩
  have hlen : A.length + (g :: (body ++ C)).length ≤ f := by
    simp only [List.length_append, List.length_cons] at hf ⊢
    omega
  rw [parseAuxF_append f A (g :: (body ++ C)) 0 hlen hCb]
  congr 1
  rcases f with _ | f
  · exfalso
    simp at hf
  · rw [parseAuxF_cons, if_pos hg]
    have hall : ∀ y ∈ body, (fun y => !isInnerHost y) y = true := by
      intro y hy
      show (!isInnerHost y) = true
      rw [hbody y hy]
      rfl
    have htake : (body ++ C).takeWhile (fun y => !isInnerHost y) = body := by
      rw [RpList.takeWhile_append_of_all _ _ _ hall,
        headBoundary_takeWhile_nil hC, List.append_nil]
    have hdrop : (body ++ C).dropWhile (fun y => !isInnerHost y) = C := by
      rw [RpList.dropWhile_append_of_all _ _ _ hall,
        headBoundary_dropWhile_self hC]
    rw [htake, hdrop]
    have hoff : 0 + A.length = A.length := by omega
    rw [hoff]
    congr 1
    apply parseAuxF_fuel_irrel
    · simp only [List.length_append, List.length_cons] at hf
      omega
    · simp only [List.length_append, List.length_cons] at hf
      omega

/-- The rendered block is an opening line followed by a boundary-free
body. -/
theorem renderBlock_shape (a p h port ts : String) :
    renderBlock a p h port ts =
      ("Host " ++ a).data :: (renderBlock a p h port ts).tail := rfl

theorem renderBlock_tail_length (a p h port ts : String) :
    (renderBlock a p h port ts).tail.length = 6 := rfl

theorem renderBlock_tail_any_marker (a p h port ts : String) :
    (renderBlock a p h port ts).tail.any isMarkerLine = true := by
  unfold renderBlock
  simp only [List.tail_cons, List.any_cons]
  rw [isMarker_marker_line a p ts]
  rfl

theorem find_first {α : Type} (p : α → Bool) :
    ∀ (l : List α) (b : α), l.find? p = some b →
      ∃ l1 l2, l = l1 ++ b :: l2 ∧ ∀ x ∈ l1, p x = false := by
  intro l
  induction l with
  | nil => intro b hb; simp at hb
  | cons x rest ih =>
    intro b hb
    rw [List.find?_cons] at hb
    by_cases hx : p x = true
    · rw [hx] at hb
      simp only [Option.some.injEq] at hb
      subst hb
      exact ⟨[], rest, rfl, by simp⟩
    · have hx' : p x = false := by simpa using hx
      rw [hx'] at hb
      rcases ih b hb with ⟨l1, l2, hsplit, hl1⟩
      refine ⟨x :: l1, l2, by rw [hsplit]; rfl, ?_⟩
      intro y hy
      rcases List.mem_cons.mp hy with h | h
      · subst h; exact hx'
      · exact hl1 y h

theorem filter_singleton_of_le_one {α : Type} (p : α → Bool) (l : List α)
    (b : α) (hmem : b ∈ l) (hb : p b = true)
    (hlen : (l.filter p).length ≤ 1) : l.filter p = [b] := by
  have hmem2 : b ∈ l.filter p := List.mem_filter.mpr ⟨hmem, hb⟩
  rcases hfil : l.filter p with _ | ⟨x, rest⟩
  · rw [hfil] at hmem2
    simp at hmem2
  · rw [hfil] at hmem2 hlen
    rcases rest with _ | ⟨y, rest2⟩
    · simp only [List.mem_singleton] at hmem2
      rw [hmem2]
    · simp at hlen

/-- Extraction of the replaced slice: `take` of the prefix length and
`drop` past the stanza give back the decomposition pieces. -/
theorem take_drop_of_decomp (A : List (List Char)) (g : List Char)
    (body C : List (List Char)) :
    (A ++ g :: (body ++ C)).take A.length = A ∧
      (A ++ g :: (body ++ C)).drop (A.length + 1 + body.length) = C := by
  constructor
  · exact List.take_left A _
  · have h1 : A ++ g :: (body ++ C) = (A ++ g :: body) ++ C := by
      simp [List.append_assoc]
    rw [h1]
    have h2 : A.length + 1 + body.length = (A ++ g :: body).length := by
      simp only [List.length_append, List.length_cons]
      omega
    rw [h2]
    exact List.drop_left _ _

end RpSsh

namespace RpSsh

theorem sepLines_cases (lines : List (List Char)) :
    sepLines lines = lines ∨ sepLines lines = lines ++ [[]] := by
  unfold sepLines
  rcases lines.getLast? with _ | last
  · exact Or.inl rfl
  · show (if (RpDur.pyStrip last).isEmpty = true then lines
        else lines ++ [[]]) = lines ∨
      (if (RpDur.pyStrip last).isEmpty = true then lines
        else lines ++ [[]]) = lines ++ [[]]
    by_cases hl : (RpDur.pyStrip last).isEmpty = true
    · rw [if_pos hl]
      exact Or.inl rfl
    · rw [if_neg hl]
      exact Or.inr rfl

theorem update_eq_none (lines : List (List Char))
    (a p h port ts : String)
    (hfind : (parseSshBlocks lines).find?
      (fun b => b.hosts.contains a) = none) :
    update_ssh_config lines a p h port ts =
      sepLines lines ++ renderBlock a p h port ts := by
  unfold update_ssh_config
  show (match (parseSshBlocks lines).find? (fun b => b.hosts.contains a) with
    | none => sepLines lines ++ renderBlock a p h port ts
    | some blk => lines.take blk.start ++ renderBlock a p h port ts ++
        lines.drop blk.stop) = _
  rw [hfind]

theorem update_eq_some (lines : List (List Char))
    (a p h port ts : String) (blk : SshBlock)
    (hfind : (parseSshBlocks lines).find?
      (fun b => b.hosts.contains a) = some blk) :
    update_ssh_config lines a p h port ts =
      lines.take blk.start ++ renderBlock a p h port ts ++
        lines.drop blk.stop := by
  unfold update_ssh_config
  show (match (parseSshBlocks lines).find? (fun b => b.hosts.contains a) with
    | none => sepLines lines ++ renderBlock a p h port ts
    | some blk => lines.take blk.start ++ renderBlock a p h port ts ++
        lines.drop blk.stop) = _
  rw [hfind]

theorem find_append_none {α : Type} (p : α → Bool) :
    ∀ (X Y : List α), X.find? p = none →
      (X ++ Y).find? p = Y.find? p := by
  intro X
  induction X with
  | nil => intro Y _; rfl
  | cons x rest ih =>
    intro Y hX
    rw [List.find?_cons] at hX
    rw [List.cons_append, List.find?_cons]
    by_cases hx : p x = true
    · rw [hx] at hX
      simp at hX
    · have hx' : p x = false := by simpa using hx
      rw [hx'] at hX ⊢
      exact ih Y hX

/-- Parsed blocks come in strictly increasing start order. -/
theorem parseAuxF_sorted (f : Nat) :
    ∀ (l : List (List Char)) (i : Nat),
      (parseAuxF f l i).Pairwise (fun b1 b2 => b1.start < b2.start) := by
  induction f with
  | zero =>
    intro l i
    rcases l with _ | ⟨x, rest⟩
    · rw [parseAuxF_nil]
      exact List.Pairwise.nil
    · exact List.Pairwise.nil
  | succ f ih =>
    intro l i
    rcases l with _ | ⟨x, rest⟩
    · rw [parseAuxF_nil]
      exact List.Pairwise.nil
    · rw [parseAuxF_cons]
      by_cases hx : isOuterHost x = true
      · rw [if_pos hx]
        refine List.Pairwise.cons ?_ (ih _ _)
        intro b hb
        have hbd := parseAuxF_bound f _ _ b hb
        show i < b.start
        omega
      · rw [if_neg hx]
        exact ih _ _

/-- Appending a blank line preserves the host lists of the parsed
blocks. -/
theorem blocks_blank_hosts (f : Nat) (lines : List (List Char))
    (hf : lines.length + 1 ≤ f) (b : SshBlock)
    (hb : b ∈ parseAuxF f (lines ++ [[]]) 0) :
    ∃ b0 ∈ parseAuxF f lines 0, b0.hosts = b.hosts := by
  rcases parseAuxF_append_blank f lines 0 hf with heq | ⟨G, b1, h1, h2, _⟩
  · rw [heq] at hb
    exact ⟨b, hb, rfl⟩
  · rw [h2] at hb
    rcases List.mem_append.mp hb with hG | hlast
    · refine ⟨b, ?_, rfl⟩
      rw [h1]
      exact List.mem_append.mpr (Or.inl hG)
    · simp only [List.mem_singleton] at hlast
      refine ⟨b1, ?_, ?_⟩
      · rw [h1]
        exact List.mem_append.mpr (Or.inr (by simp))
      · rw [hlast]

theorem removeManaged_nil : removeManaged [] = [] := rfl

end RpSsh

namespace RpSsh

/-- Deleting the managed ranges of a file that decomposes into a prefix, a
managed stanza and a boundary suffix keeps exactly the non-managed
content of prefix and suffix. -/
theorem removeManaged_decomp (A : List (List Char)) (g : List Char)
    (body C : List (List Char))
    (hg : isOuterHost g = true)
    (hbody : ∀ x ∈ body, isInnerHost x = false)
    (hC : HeadBoundary C)
    (hm : body.any isMarkerLine = true) :
    removeManaged (A ++ g :: (body ++ C)) =
      removeManaged A ++ removeManaged C := by
  have hflen : (A ++ g :: (body ++ C)).length =
      A.length + 1 + body.length + C.length := by
    simp only [List.length_append, List.length_cons]
    omega
  have hfA : A.length ≤ (A ++ g :: (body ++ C)).length := by omega
  have hfC : C.length ≤ (A ++ g :: (body ++ C)).length := by omega
  have hdec := parse_decomp (A ++ g :: (body ++ C)).length A g body C
    (le_refl _) hg hbody hC
  have hA : parseAuxF (A ++ g :: (body ++ C)).length A 0 =
      parseAuxF A.length A 0 :=
    parseAuxF_fuel_irrel _ _ _ _ hfA (le_refl _)
  have hshift : parseAuxF (A ++ g :: (body ++ C)).length C
      (A.length + 1 + body.length) =
      (parseAuxF C.length C 0).map
        (blockShift (A.length + 1 + body.length)) := by
    have h1 := parseAuxF_shift (A ++ g :: (body ++ C)).length C 0
      (A.length + 1 + body.length)
    rw [Nat.add_zero] at h1
    rw [h1]
    congr 1
    exact parseAuxF_fuel_irrel _ _ _ _ hfC (le_refl _)
  rw [hA, hshift, hm] at hdec
  -- the ranges of the whole file
  have hranges :
      ((parseAuxF (A ++ g :: (body ++ C)).length
          (A ++ g :: (body ++ C)) 0).filter (fun b => b.managed)).map
        (fun b => (b.start, b.stop)) =
      ((parseAuxF A.length A 0).filter (fun b => b.managed)).map
          (fun b => (b.start, b.stop)) ++
        (A.length, A.length + 1 + body.length) ::
          (((parseAuxF C.length C 0).filter (fun b => b.managed)).map
            (fun b => (b.start, b.stop))).map
              (fun r => (r.1 + (A.length + 1 + body.length),
                r.2 + (A.length + 1 + body.length))) := by
    rw [hdec, List.filter_append, List.map_append]
    congr 1
    rw [List.filter_cons]
    rw [if_pos rfl]
    rw [List.map_cons]
    congr 1
    rw [List.filter_map, List.map_map, List.map_map]
    rfl
  -- regroup the middle and suffix ranges as shifted local ranges
  have hregroup :
      (A.length, A.length + 1 + body.length) ::
          (((parseAuxF C.length C 0).filter (fun b => b.managed)).map
            (fun b => (b.start, b.stop))).map
              (fun r => (r.1 + (A.length + 1 + body.length),
                r.2 + (A.length + 1 + body.length))) =
      ((0, body.length + 1) ::
          (((parseAuxF C.length C 0).filter (fun b => b.managed)).map
            (fun b => (b.start, b.stop))).map
              (fun r => (r.1 + (body.length + 1),
                r.2 + (body.length + 1)))).map
        (fun r => (r.1 + A.length, r.2 + A.length)) := by
    rw [List.map_cons]
    congr 1
    · simp only [Prod.mk.injEq]
      omega
    · conv_rhs => rw [List.map_map]
      apply List.map_congr_left
      intro r _
      simp only [Function.comp_apply, Prod.mk.injEq]
      omega
  have hboundsA : ∀ r ∈ ((parseAuxF A.length A 0).filter
      (fun b => b.managed)).map (fun b => (b.start, b.stop)),
      r.1 ≤ A.length ∧ r.2 ≤ A.length := by
    intro r hr
    rcases List.mem_map.mp hr with ⟨b, hbf, hproj⟩
    have hbm := (List.mem_filter.mp hbf).1
    have hbd := parseAuxF_bound A.length A 0 b hbm
    rw [← hproj]
    simp only
    omega
  show deleteRangesAux (A ++ g :: (body ++ C)) 0
      (((parseAuxF (A ++ g :: (body ++ C)).length
        (A ++ g :: (body ++ C)) 0).filter (fun b => b.managed)).map
          (fun b => (b.start, b.stop))) = _
  rw [hranges, hregroup]
  rw [deleteRangesAux_concat A (g :: (body ++ C)) _ _ 0 (Nat.zero_le _)
    hboundsA]
  congr 1
  exact deleteRangesAux_shift (g :: body) C _ 0

/-- Appending a blank line to a file changes its non-managed content by at
most a trailing blank line. -/
theorem removeManaged_append_blank (lines : List (List Char)) :
    removeManaged (lines ++ [[]]) = removeManaged lines ++ [[]] ∨
    removeManaged (lines ++ [[]]) = removeManaged lines := by
  have hf : lines.length + 1 ≤ (lines ++ [[]]).length := by
    simp
  have hFfuel : parseAuxF (lines ++ [[]]).length lines 0 =
      parseAuxF lines.length lines 0 :=
    parseAuxF_fuel_irrel _ _ _ _ (by simp) (le_refl _)
  unfold removeManaged parseSshBlocks
  rcases parseAuxF_append_blank (lines ++ [[]]).length lines 0 hf with
    heq | ⟨G, b, h1, h2, hstop⟩
  · -- no block reaches the end: the blank line survives after the ranges
    left
    have hbounds : ∀ r ∈ ((parseAuxF (lines ++ [[]]).length
        (lines ++ [[]]) 0).filter (fun b => b.managed)).map
          (fun b => (b.start, b.stop)),
        r.1 ≤ lines.length ∧ r.2 ≤ lines.length := by
      intro r hr
      rcases List.mem_map.mp hr with ⟨b, hbf, hproj⟩
      have hbm := (List.mem_filter.mp hbf).1
      rw [heq, hFfuel] at hbm
      have hbd := parseAuxF_bound lines.length lines 0 b hbm
      rw [← hproj]
      simp only
      omega
    rw [deleteRangesAux_append_right [[]] lines _ 0 (Nat.zero_le _) hbounds]
    congr 1
    rw [heq, hFfuel]
  · -- the last block is extended over the blank line
    have hGb : ∀ b2 ∈ G ++ [b], b2 ∈ parseAuxF lines.length lines 0 := by
      intro b2 hb2
      rw [← hFfuel, h1]
      exact hb2
    have hboundsG : ∀ r ∈ (G.filter (fun b => b.managed)).map
        (fun b => (b.start, b.stop)),
        r.1 ≤ lines.length ∧ r.2 ≤ lines.length := by
      intro r hr
      rcases List.mem_map.mp hr with ⟨b2, hbf, hproj⟩
      have hbm := (List.mem_filter.mp hbf).1
      have hbd := parseAuxF_bound lines.length lines 0 b2
        (hGb b2 (List.mem_append.mpr (Or.inl hbm)))
      rw [← hproj]
      simp only
      omega
    have hbmem : b ∈ parseAuxF lines.length lines 0 :=
      hGb b (List.mem_append.mpr (Or.inr (by simp)))
    have hbbd := parseAuxF_bound lines.length lines 0 b hbmem
    have hstop0 : b.stop = lines.length := by omega
    by_cases hbm : b.managed = true
    · -- the extended block is managed: its range is clipped back
      right
      have hfl : ((G ++ [b]).filter (fun x => x.managed)).map
          (fun x => (x.start, x.stop)) =
          (G.filter (fun x => x.managed)).map (fun x => (x.start, x.stop)) ++
            [(b.start, b.stop)] := by
        rw [List.filter_append, List.map_append]
        congr 1
        rw [List.filter_cons, if_pos hbm]
        rfl
      have hfl2 : ((G ++ [({ b with stop := b.stop + 1 } : SshBlock)]).filter
          (fun x => x.managed)).map (fun x => (x.start, x.stop)) =
          (G.filter (fun x => x.managed)).map (fun x => (x.start, x.stop)) ++
            [(b.start, b.stop + 1)] := by
        rw [List.filter_append, List.map_append]
        congr 1
        rw [List.filter_cons]
        rw [if_pos (show ({ b with stop := b.stop + 1 } : SshBlock).managed =
          true from hbm)]
        rfl
      have e1 : ((parseAuxF (lines ++ [[]]).length (lines ++ [[]]) 0).filter
          (fun x => x.managed)).map (fun x => (x.start, x.stop)) =
          (G.filter (fun x => x.managed)).map (fun x => (x.start, x.stop)) ++
            [(b.start, lines.length + ([[]] : List (List Char)).length)] := by
        rw [h2, hfl2]
        congr 3
        rw [hstop0]
        rfl
      have e2 : ((parseAuxF lines.length lines 0).filter
          (fun x => x.managed)).map (fun x => (x.start, x.stop)) =
          (G.filter (fun x => x.managed)).map (fun x => (x.start, x.stop)) ++
            [(b.start, lines.length)] := by
        rw [← hFfuel, h1, hfl, hstop0]
      rw [e1, e2]
      exact deleteRangesAux_last_range [[]] lines _ 0 b.start
        (Nat.zero_le _) (by omega) hboundsG
    · -- the extended block is not managed: ranges unchanged
      left
      have hbm2 : b.managed = false := by simpa using hbm
      have hfl : ((G ++ [b]).filter (fun x => x.managed)).map
          (fun x => (x.start, x.stop)) =
          (G.filter (fun x => x.managed)).map
            (fun x => (x.start, x.stop)) := by
        rw [List.filter_append]
        have hnil : ([b].filter (fun x => x.managed)) = [] := by
          rw [List.filter_cons, if_neg (by rw [hbm2]; simp)]
          rfl
        rw [hnil, List.append_nil]
      have hfl2 : ((G ++ [({ b with stop := b.stop + 1 } : SshBlock)]).filter
          (fun x => x.managed)).map (fun x => (x.start, x.stop)) =
          (G.filter (fun x => x.managed)).map
            (fun x => (x.start, x.stop)) := by
        rw [List.filter_append]
        have hnil : ([({ b with stop := b.stop + 1 } : SshBlock)].filter
            (fun x => x.managed)) = [] := by
          rw [List.filter_cons, if_neg (by
            show ¬(({ b with stop := b.stop + 1 } : SshBlock).managed = true)
            rw [show ({ b with stop := b.stop + 1 } : SshBlock).managed =
              b.managed from rfl, hbm2]
            simp)]
          rfl
        rw [hnil, List.append_nil]
      have e1 : ((parseAuxF (lines ++ [[]]).length (lines ++ [[]]) 0).filter
          (fun x => x.managed)).map (fun x => (x.start, x.stop)) =
          (G.filter (fun x => x.managed)).map
            (fun x => (x.start, x.stop)) := by
        rw [h2, hfl2]
      have e2 : ((parseAuxF lines.length lines 0).filter
          (fun x => x.managed)).map (fun x => (x.start, x.stop)) =
          (G.filter (fun x => x.managed)).map
            (fun x => (x.start, x.stop)) := by
        rw [← hFfuel, h1, hfl]
      rw [e1, e2]
      exact deleteRangesAux_append_right [[]] lines _ 0 (Nat.zero_le _)
        hboundsG

end RpSsh

namespace RpSsh

/-- C5: counterexample to the first-name-token matching rule of the spec:
in a file whose only stanza opens with `Host foo bar`, upserting the alias
`bar` (which is not the stanza's first name `foo`) replaces that stanza
in place instead of appending a new block. -/
theorem update_ssh_config_first_name_cex :
    hostTokens ("Host foo bar").data = ["foo", "bar"] ∧
    update_ssh_config [("Host foo bar").data, ("    HostName x").data]
        "bar" "p" "h" "22" "t" =
      renderBlock "bar" "p" "h" "22" "t" := ⟨rfl, rfl⟩

/-- C5 (amended): `update_ssh_config` replaces the first stanza whose
whole host-token list contains the alias (not merely as first name),
substituting the rendered block for the stanza's full line range; when no
stanza lists the alias it appends the rendered block after the
blank-separator step. -/
theorem update_ssh_config_match_any_token (lines : List (List Char))
    (a p h port ts : String) :
    ((∀ b ∈ parseSshBlocks lines, b.hosts.contains a = false) →
      update_ssh_config lines a p h port ts =
        sepLines lines ++ renderBlock a p h port ts) ∧
    (∀ blk, (parseSshBlocks lines).find? (fun b => b.hosts.contains a) =
        some blk →
      blk.hosts.contains a = true ∧
      (∀ b2 ∈ parseSshBlocks lines, b2.hosts.contains a = true →
        blk.start ≤ b2.start) ∧
      ∃ A g body C, lines = A ++ g :: (body ++ C) ∧
        isOuterHost g = true ∧ (hostTokens g).contains a = true ∧
        update_ssh_config lines a p h port ts =
          A ++ renderBlock a p h port ts ++ C) := by
  constructor
  · intro hall
    apply update_eq_none
    apply List.find?_eq_none.mpr
    intro b hb
    rw [hall b hb]
    simp
  · intro blk hfind
    have hp0 := List.find?_some hfind
    have hp : blk.hosts.contains a = true := hp0
    have hmem : blk ∈ parseSshBlocks lines := List.mem_of_find?_eq_some hfind
    refine ⟨hp, ?_, ?_⟩
    · intro b2 hb2 hb2a
      rcases find_first _ _ _ hfind with ⟨l1, l2, hsplit, hl1⟩
      have hsort : (parseSshBlocks lines).Pairwise
          (fun b1 b2 => b1.start < b2.start) :=
        parseAuxF_sorted lines.length lines 0
      rw [hsplit] at hsort hb2
      rcases List.mem_append.mp hb2 with hin1 | hin2
      · have := hl1 b2 hin1
        rw [hb2a] at this
        simp at this
      · rcases List.mem_cons.mp hin2 with heq2 | hin2b
        · rw [heq2]
        · have hpw := (List.pairwise_append.mp hsort).2.1
          have hlt := (List.pairwise_cons.mp hpw).1 b2 hin2b
          omega
    · rcases parseAuxF_mem_dec lines.length lines 0 blk hmem with
        ⟨A, g, body, C, hsplit, hstart, hstop, hg, hbody, hC, hhosts, hmg⟩
      refine ⟨A, g, body, C, hsplit, hg, ?_, ?_⟩
      · rw [← hhosts]
        exact hp
      · rw [update_eq_some lines a p h port ts blk hfind]
        have htd := take_drop_of_decomp A g body C
        have hstart2 : blk.start = A.length := by omega
        have hstop2 : blk.stop = A.length + 1 + body.length := by omega
        rw [hstart2, hstop2, hsplit, htd.1, htd.2]

theorem update_ssh_config_match_any_token_witness :
    update_ssh_config [] "a" "p" "h" "22" "t" =
      sepLines [] ++ renderBlock "a" "p" "h" "22" "t" :=
  (update_ssh_config_match_any_token [] "a" "p" "h" "22" "t").1
    (fun b hb => absurd hb (List.not_mem_nil b))

end RpSsh

namespace RpSsh

theorem blockShift_hosts (k : Nat) (b : SshBlock) :
    (blockShift k b).hosts = b.hosts := rfl

theorem find_cons_pos {α : Type} (p : α → Bool) (x : α) (l : List α)
    (hx : p x = true) : (x :: l).find? p = some x := by
  rw [List.find?_cons, hx]

/-- The parse of a file decomposed around one stanza, with prefix and
suffix parsed as standalone files. -/
theorem parse_blocks_shape (A : List (List Char)) (g : List Char)
    (body C : List (List Char))
    (hg : isOuterHost g = true)
    (hbody : ∀ x ∈ body, isInnerHost x = false)
    (hC : HeadBoundary C) :
    ∃ mid, parseSshBlocks (A ++ g :: (body ++ C)) =
        parseSshBlocks A ++ mid ::
          (parseSshBlocks C).map (blockShift (A.length + 1 + body.length)) ∧
      mid.start = A.length ∧ mid.stop = A.length + 1 + body.length ∧
      mid.hosts = hostTokens g ∧ mid.managed = body.any isMarkerLine := by
  refine ⟨{ start := A.length
            stop := A.length + 1 + body.length
            hosts := hostTokens g
            managed := body.any isMarkerLine
            markerIdx := match body.findIdx? isMarkerLine with
              | some j => (A.length : Int) + 1 + (j : Int)
              | none => -1 }, ?_, rfl, rfl, rfl, rfl⟩
  have hflen : (A ++ g :: (body ++ C)).length =
      A.length + 1 + body.length + C.length := by
    simp only [List.length_append, List.length_cons]
    omega
  have hfA : A.length ≤ (A ++ g :: (body ++ C)).length := by omega
  have hfC : C.length ≤ (A ++ g :: (body ++ C)).length := by omega
  unfold parseSshBlocks
  rw [parse_decomp (A ++ g :: (body ++ C)).length A g body C (le_refl _)
    hg hbody hC]
  congr 1
  · exact parseAuxF_fuel_irrel _ _ _ _ hfA (le_refl _)
  · congr 1
    have h1 := parseAuxF_shift (A ++ g :: (body ++ C)).length C 0
      (A.length + 1 + body.length)
    rw [Nat.add_zero] at h1
    rw [h1]
    congr 1
    exact parseAuxF_fuel_irrel _ _ _ _ hfC (le_refl _)

/-- An upsert into a file of the shape `prefix ++ stanza ++ suffix`, where
the stanza is a managed block for exactly the alias and neither prefix nor
suffix lists the alias: it replaces the stanza in place, and the file has
exactly one alias block, which is managed with host list `[alias]`. -/
theorem upsert_block_shape (A : List (List Char)) (g : List Char)
    (body C : List (List Char)) (a : String)
    (hg : isOuterHost g = true)
    (hbody : ∀ x ∈ body, isInnerHost x = false)
    (hC : HeadBoundary C)
    (hgh : hostTokens g = [a])
    (hbm : body.any isMarkerLine = true)
    (hAnone : ∀ b ∈ parseSshBlocks A, b.hosts.contains a = false)
    (hCnone : ∀ b ∈ parseSshBlocks C, b.hosts.contains a = false) :
    (∀ p2 h2 prt2 ts2, update_ssh_config (A ++ g :: (body ++ C))
        a p2 h2 prt2 ts2 = A ++ renderBlock a p2 h2 prt2 ts2 ++ C) ∧
    ((parseSshBlocks (A ++ g :: (body ++ C))).filter
      (fun b => b.hosts.contains a)).length = 1 ∧
    (∀ b ∈ parseSshBlocks (A ++ g :: (body ++ C)),
      b.hosts.contains a = true → b.managed = true ∧ b.hosts = [a]) := by
  rcases parse_blocks_shape A g body C hg hbody hC with
    ⟨mid, hblocks, hms, hmt, hmh, hmm⟩
  rw [hgh] at hmh
  rw [hbm] at hmm
  have hpmid : mid.hosts.contains a = true := by
    rw [hmh]
    simp
  have hfindA : (parseSshBlocks A).find?
      (fun b => b.hosts.contains a) = none := by
    apply List.find?_eq_none.mpr
    intro b hb
    rw [hAnone b hb]
    simp
  have hCnone2 : ∀ b2 ∈ (parseSshBlocks C).map
      (blockShift (A.length + 1 + body.length)),
      b2.hosts.contains a = false := by
    intro b2 hb2
    rcases List.mem_map.mp hb2 with ⟨b0, hb0, hsh⟩
    rw [← hsh, blockShift_hosts]
    exact hCnone b0 hb0
  have hfind : (parseSshBlocks (A ++ g :: (body ++ C))).find?
      (fun b => b.hosts.contains a) = some mid := by
    rw [hblocks, find_append_none _ _ _ hfindA]
    exact find_cons_pos _ _ _ hpmid
  refine ⟨?_, ?_, ?_⟩
  · intro p2 h2 prt2 ts2
    rw [update_eq_some _ a p2 h2 prt2 ts2 mid hfind]
    have htd := take_drop_of_decomp A g body C
    rw [hms, hmt, htd.1, htd.2]
  · rw [hblocks, List.filter_append, List.filter_cons]
    rw [if_pos hpmid]
    rw [List.filter_eq_nil_iff.mpr (fun b hb => by
      rw [hAnone b hb]
      simp)]
    rw [List.filter_eq_nil_iff.mpr (fun b hb => by
      rw [hCnone2 b hb]
      simp)]
    rfl
  · intro b hb hba
    rw [hblocks] at hb
    rcases List.mem_append.mp hb with hbA | hbmid
    · rw [hAnone b hbA] at hba
      exact absurd hba (by simp)
    · rcases List.mem_cons.mp hbmid with hbeq | hbC
      · rw [hbeq]
        exact ⟨hmm, hmh⟩
      · rw [hCnone2 b hbC] at hba
        exact absurd hba (by simp)

end RpSsh

namespace RpSsh

/-- C6: counterexample to the unconditional round-trip: a non-managed
stanza whose host token equals the alias is replaced by the upsert, so its
lines leave the non-managed content of the file. -/
theorem upsert_twice_cex :
    update_ssh_config (update_ssh_config
        [("Host a").data, ("    HostName old").data] "a" "p" "h" "22" "t")
        "a" "q" "h2" "23" "t2" =
      renderBlock "a" "q" "h2" "23" "t2" ∧
    removeManaged [("Host a").data, ("    HostName old").data] =
      [("Host a").data, ("    HostName old").data] ∧
    removeManaged (renderBlock "a" "q" "h2" "23" "t2") = [] :=
  ⟨rfl, rfl, rfl⟩

/-- C6 (amended): when the alias is a single token, at most one stanza of
the file lists it among its host tokens, and every stanza listing it is
managed, two successive upserts leave exactly one stanza for the alias —
managed, with host list exactly the alias, rendered from the second
call's parameters — and the non-managed lines of the file are preserved,
up to one appended blank separator line. -/
theorem upsert_twice_canonical (lines R : List (List Char))
    (a pA hA prtA tsA pB hB prtB tsB : String)
    (hR : R = update_ssh_config
      (update_ssh_config lines a pA hA prtA tsA) a pB hB prtB tsB)
    (ha : IsToken a)
    (huniq : ((parseSshBlocks lines).filter
      (fun b => b.hosts.contains a)).length ≤ 1)
    (hman : ∀ b ∈ parseSshBlocks lines, b.hosts.contains a = true →
      b.managed = true) :
    (∃ X Y, R = X ++ renderBlock a pB hB prtB tsB ++ Y) ∧
    ((parseSshBlocks R).filter (fun b => b.hosts.contains a)).length = 1 ∧
    (∀ b ∈ parseSshBlocks R, b.hosts.contains a = true →
      b.managed = true ∧ b.hosts = [a]) ∧
    (removeManaged R = removeManaged lines ∨
      removeManaged R = removeManaged lines ++ [[]]) := by
  have hg1 : isOuterHost (("Host " ++ a).data) = true :=
    isOuter_render_head a ha
  have hgh1 : hostTokens (("Host " ++ a).data) = [a] :=
    hostTokens_render_head a ha
  have hbodyA := renderBlock_body_not_inner a pA hA prtA tsA
  have hbmA := renderBlock_tail_any_marker a pA hA prtA tsA
  have hbodyB := renderBlock_body_not_inner a pB hB prtB tsB
  have hbmB := renderBlock_tail_any_marker a pB hB prtB tsB
  rcases hfind0 : (parseSshBlocks lines).find?
      (fun b => b.hosts.contains a) with _ | blk
  · -- no stanza lists the alias: the first upsert appends
    have hlnone : ∀ b ∈ parseSshBlocks lines, b.hosts.contains a = false := by
      intro b hb
      have := List.find?_eq_none.mp hfind0 b hb
      simpa using this
    have hR1 : update_ssh_config lines a pA hA prtA tsA =
        sepLines lines ++ renderBlock a pA hA prtA tsA :=
      update_eq_none lines a pA hA prtA tsA hfind0
    have hAnone : ∀ b ∈ parseSshBlocks (sepLines lines),
        b.hosts.contains a = false := by
      rcases sepLines_cases lines with hsep | hsep
      · rw [hsep]
        exact hlnone
      · rw [hsep]
        intro b hb
        have hb2 : b ∈ parseAuxF (lines ++ [[]]).length (lines ++ [[]]) 0 :=
          hb
        rcases blocks_blank_hosts (lines ++ [[]]).length lines (by simp)
            b hb2 with ⟨b0, hb0, hhosts⟩
        rw [← hhosts]
        apply hlnone
        have hfi : parseAuxF (lines ++ [[]]).length lines 0 =
            parseAuxF lines.length lines 0 :=
          parseAuxF_fuel_irrel _ _ _ _ (by simp) (le_refl _)
        rw [hfi] at hb0
        exact hb0
    have hCnone : ∀ b ∈ parseSshBlocks ([] : List (List Char)),
        b.hosts.contains a = false := by
      intro b hb
      exact absurd hb (List.not_mem_nil b)
    have hassoc : ∀ (p h prt ts : String),
        sepLines lines ++ renderBlock a p h prt ts ++ [] =
          sepLines lines ++ ("Host " ++ a).data ::
            ((renderBlock a p h prt ts).tail ++ []) := by
      intro p h prt ts
      rw [List.append_assoc]
      rfl
    have hshapeA := upsert_block_shape (sepLines lines)
      (("Host " ++ a).data) (renderBlock a pA hA prtA tsA).tail [] a
      hg1 hbodyA (Or.inl rfl) hgh1 hbmA hAnone hCnone
    have hshapeB := upsert_block_shape (sepLines lines)
      (("Host " ++ a).data) (renderBlock a pB hB prtB tsB).tail [] a
      hg1 hbodyB (Or.inl rfl) hgh1 hbmB hAnone hCnone
    have hRval : R = sepLines lines ++ renderBlock a pB hB prtB tsB ++ [] := by
      rw [hR, hR1, show sepLines lines ++ renderBlock a pA hA prtA tsA =
        sepLines lines ++ renderBlock a pA hA prtA tsA ++ [] from
        (List.append_nil _).symm, hassoc pA hA prtA tsA]
      exact hshapeA.1 pB hB prtB tsB
    have hRfile : R = sepLines lines ++ ("Host " ++ a).data ::
        ((renderBlock a pB hB prtB tsB).tail ++ []) :=
      hRval.trans (hassoc pB hB prtB tsB)
    refine ⟨⟨sepLines lines, [], hRval⟩, ?_, ?_, ?_⟩
    · rw [hRfile]
      exact hshapeB.2.1
    · rw [hRfile]
      exact hshapeB.2.2
    · have hrmR : removeManaged R =
          removeManaged (sepLines lines) ++ removeManaged [] := by
        rw [hRfile]
        exact removeManaged_decomp (sepLines lines) _ _ [] hg1 hbodyB
          (Or.inl rfl) hbmB
      rw [removeManaged_nil, List.append_nil] at hrmR
      rcases sepLines_cases lines with hsep | hsep
      · left
        rw [hrmR, hsep]
      · rw [hsep] at hrmR
        rcases removeManaged_append_blank lines with hb1 | hb2
        · right
          rw [hrmR, hb1]
        · left
          rw [hrmR, hb2]
  · -- a stanza lists the alias: both upserts replace it in place
    have hmem : blk ∈ parseSshBlocks lines := List.mem_of_find?_eq_some hfind0
    have hp0 := List.find?_some hfind0
    have hp : blk.hosts.contains a = true := hp0
    have hblkman : blk.managed = true := hman blk hmem hp
    rcases parseAuxF_mem_dec lines.length lines 0 blk hmem with
      ⟨A0, g0, body0, C0, hsplit, hstart, hstop, hg0, hbody0, hC0,
        hhosts0, hmg0⟩
    have hbm0 : body0.any isMarkerLine = true := by
      rw [← hmg0]
      exact hblkman
    rcases parse_blocks_shape A0 g0 body0 C0 hg0 hbody0 hC0 with
      ⟨mid0, hblocks0, hms0, hmt0, hmh0, hmm0⟩
    have hmidp0 : mid0.hosts.contains a = true := by
      rw [hmh0, ← hhosts0]
      exact hp
    have hfilters := huniq
    rw [hsplit, hblocks0, List.filter_append, List.filter_cons,
      if_pos hmidp0, List.length_append, List.length_cons] at hfilters
    have hlen1 : ((parseSshBlocks A0).filter
        (fun b => b.hosts.contains a)).length = 0 := by omega
    have hlen2 : (((parseSshBlocks C0).map
        (blockShift (A0.length + 1 + body0.length))).filter
        (fun b => b.hosts.contains a)).length = 0 := by omega
    have hfA0 := List.length_eq_zero.mp hlen1
    have hfC0 := List.length_eq_zero.mp hlen2
    have hAnone : ∀ b ∈ parseSshBlocks A0, b.hosts.contains a = false := by
      intro b hb
      by_contra hcon
      have hmf : b ∈ (parseSshBlocks A0).filter
          (fun b => b.hosts.contains a) :=
        List.mem_filter.mpr ⟨hb, by simpa using hcon⟩
      rw [hfA0] at hmf
      exact absurd hmf (List.not_mem_nil b)
    have hCnone : ∀ b ∈ parseSshBlocks C0, b.hosts.contains a = false := by
      intro b hb
      by_contra hcon
      have hmm2 : blockShift (A0.length + 1 + body0.length) b ∈
          (parseSshBlocks C0).map
            (blockShift (A0.length + 1 + body0.length)) :=
        List.mem_map_of_mem _ hb
      have hmf : blockShift (A0.length + 1 + body0.length) b ∈
          ((parseSshBlocks C0).map
            (blockShift (A0.length + 1 + body0.length))).filter
            (fun b => b.hosts.contains a) :=
        List.mem_filter.mpr ⟨hmm2, by
          rw [blockShift_hosts]
          simpa using hcon⟩
      rw [hfC0] at hmf
      exact absurd hmf (List.not_mem_nil _)
    have htd0 := take_drop_of_decomp A0 g0 body0 C0
    have hR1 : update_ssh_config lines a pA hA prtA tsA =
        A0 ++ renderBlock a pA hA prtA tsA ++ C0 := by
      rw [update_eq_some lines a pA hA prtA tsA blk hfind0]
      have hstart2 : blk.start = A0.length := by omega
      have hstop2 : blk.stop = A0.length + 1 + body0.length := by omega
      rw [hstart2, hstop2, hsplit, htd0.1, htd0.2]
    have hassoc : ∀ (p h prt ts : String),
        A0 ++ renderBlock a p h prt ts ++ C0 =
          A0 ++ ("Host " ++ a).data ::
            ((renderBlock a p h prt ts).tail ++ C0) := by
      intro p h prt ts
      rw [List.append_assoc]
      rfl
    have hshapeA := upsert_block_shape A0 (("Host " ++ a).data)
      (renderBlock a pA hA prtA tsA).tail C0 a hg1 hbodyA hC0 hgh1 hbmA
      hAnone hCnone
    have hshapeB := upsert_block_shape A0 (("Host " ++ a).data)
      (renderBlock a pB hB prtB tsB).tail C0 a hg1 hbodyB hC0 hgh1 hbmB
      hAnone hCnone
    have hRval : R = A0 ++ renderBlock a pB hB prtB tsB ++ C0 := by
      rw [hR, hR1, hassoc pA hA prtA tsA]
      exact hshapeA.1 pB hB prtB tsB
    have hRfile : R = A0 ++ ("Host " ++ a).data ::
        ((renderBlock a pB hB prtB tsB).tail ++ C0) :=
      hRval.trans (hassoc pB hB prtB tsB)
    refine ⟨⟨A0, C0, hRval⟩, ?_, ?_, ?_⟩
    · rw [hRfile]
      exact hshapeB.2.1
    · rw [hRfile]
      exact hshapeB.2.2
    · left
      have hrmR : removeManaged R = removeManaged A0 ++ removeManaged C0 := by
        rw [hRfile]
        exact removeManaged_decomp A0 _ _ C0 hg1 hbodyB hC0 hbmB
      have hrmL : removeManaged lines =
          removeManaged A0 ++ removeManaged C0 := by
        rw [hsplit]
        exact removeManaged_decomp A0 g0 body0 C0 hg0 hbody0 hC0 hbm0
      rw [hrmR, hrmL]

theorem upsert_twice_canonical_witness :
    ∃ X Y, update_ssh_config (update_ssh_config [] "a" "p" "h" "22" "t")
        "a" "q" "h2" "23" "t2" =
      X ++ renderBlock "a" "q" "h2" "23" "t2" ++ Y :=
  (upsert_twice_canonical [] _ "a" "p" "h" "22" "t" "q" "h2" "23" "t2" rfl
    ⟨by decide, by decide⟩ (by decide)
    (fun b hb _ => absurd hb (List.not_mem_nil b))).1

end RpSsh
